import Mathlib

/-!
Verification of `src/citra_qt/bootmanager.cpp`.

The file is a shallow embedding of

* the emulation thread `EmuThread` (`run`, `Stop`) together with the hand-off of the
  GL context between the application thread and the emulation thread
  (`GRenderWindow::moveContext`), as a transition system over an explicit state `Sys`;
* the geometry bookkeeping of `GRenderWindow` (`BackupGeometry`, `RestoreGeometry`,
  `restoreGeometry`, `saveGeometry`).

Two threads exist: the application (GUI) thread and the emulation thread.  Everything the
two threads do that is visible outside the file (calls into `Core`, GL context calls, Qt
thread calls, log lines) is appended to a trace of `Act`.

What is taken from Qt, which the file calls but does not define:

* `QThread::start()` launches the thread unless it is running; the new thread emits
  `started()` and then calls `run()`; `isRunning()` is true from `start()` until the thread
  has finished or was terminated.
* `started()` is emitted on the new thread while the receiver of the connection of
  line 130, the window, lives on the application thread: the slot `moveContext` is queued
  and runs when the application thread gets back to its event loop.  (This is the case
  line 141 is written for: it picks `&emu_thread` as the target when the caller is
  `qApp->thread()`.)
* `QThread::wait(ms)` blocks the caller, without running its event loop, until the thread
  has finished or the time is over; how far the emulation thread gets meanwhile is a
  parameter of `Stop` in the model.
* `QThread::quit()` only concerns a thread that runs an event loop; `run()` has none.
* `QThread::terminate()` kills the thread where it stands; nothing of `run()` is executed
  afterwards.
* `moveToThread(target)` sets the thread affinity of the context.  (Qt carries the call
  out only when the caller is the thread the object lives on.  The model need not tell
  the two apart: the application thread only ever asks for `&emu_thread` and the
  emulation thread only ever for `qApp->thread()`, so a call Qt would refuse asks for the
  thread the context already lives on.)

The loop test of line 40 and one pass of the loop body are one step of the emulation
thread.  `start`, a flag write and a run of the queued slot are one step of the
application thread each.  `Stop` is not atomic: the emulation thread may advance between
any two of its statements, and by how much is the `Schedule` that `Stop` takes.
-/

namespace Bootmanager

/-! ## Build configuration -/

/-- Qt's `QT_VERSION_CHECK(major, minor, patch)`, which packs a version number as
`(major << 16) | (minor << 8) | patch`. -/
def QT_VERSION_CHECK (major minor patch : Nat) : Nat :=
  (major <<< 16) ||| (minor <<< 8) ||| patch

/-- The build: `QT_VERSION` is the version of Qt the file is compiled against; it decides
the `#if` in `GRenderWindow::moveContext`. -/
structure Build where
  QT_VERSION : Nat
deriving DecidableEq, Repr

/-! ## Threads, observable actions, state -/

/-- The two threads: `app` is `qApp->thread()`, `emu` is `&emu_thread`. -/
inductive Thread where
  | app
  | emu
deriving DecidableEq, Repr

/-- Severity of a log line (`INFO_LOG`, `WARN_LOG`). -/
inductive Severity where
  | info
  | warn
deriving DecidableEq, Repr

/-- The four log lines of `EmuThread::Stop`. -/
inductive Diag where
  /-- "EmuThread::Stop called while emu thread wasn't running, returning..." -/
  | notRunning
  /-- "EmuThread still running, terminating..." -/
  | stillRunning
  /-- "EmuThread STILL running, something is wrong here..." -/
  | somethingWrong
  /-- "EmuThread stopped" -/
  | stopped
deriving DecidableEq, Repr

/-- Externally visible actions, in the order they happen. -/
inductive Act where
  /-- the new thread emits `started()` -/
  | emitStarted
  /-- `Core::RunLoop()` -/
  | runLoop
  /-- `Core::SingleStep()` -/
  | singleStep
  /-- `emit CPUStepped()` -/
  | cpuStepped
  /-- `yieldCurrentThread()` -/
  | yieldCurrentThread
  /-- `child->doneCurrent()`, called on thread `caller` -/
  | doneCurrent (caller : Thread)
  /-- `child->context()->moveToThread(target)` -/
  | moveToThread (target : Thread)
  /-- `Core::Stop()` -/
  | coreStop
  /-- `wait(ms)` -/
  | wait (ms : Nat)
  /-- `quit()` -/
  | quit
  /-- `terminate()` -/
  | terminate
  /-- a log line -/
  | log (sev : Severity) (msg : Diag)
deriving DecidableEq, Repr

/-- Where the emulation thread stands in its life cycle and in `EmuThread::run`. -/
inductive Pc where
  /-- never started -/
  | idle
  /-- `start()` was called; the new thread has not yet emitted `started()` -/
  | launched
  /-- `started()` emitted; about to execute `stop_run = false` (line 39) -/
  | entry
  /-- at the loop test `while (!stop_run)` (line 40) -/
  | loop
  /-- the loop was left; about to call `render_window->moveContext()` (line 54) -/
  | leaving
  /-- about to call `Core::Stop()` (line 56) -/
  | halting
  /-- `run()` returned -/
  | finished
  /-- killed by `terminate()` -/
  | terminated
deriving DecidableEq, Repr

/-- State of the emulation thread, of the GL context and of the pending slot calls,
with the trace of actions so far.  `exec_cpu_step`, `cpu_running`, `stop_run` are the
members of `EmuThread`; `context` is the thread the GL context `child->context()` has
affinity to; `queued` counts `started()` notifications whose slot `moveContext` the
application thread has not yet run. -/
structure Sys where
  exec_cpu_step : Bool
  cpu_running : Bool
  stop_run : Bool
  pc : Pc
  context : Thread
  queued : Nat
  trace : List Act
deriving DecidableEq, Repr

/-- State after `GRenderWindow::GRenderWindow`: the member `emu_thread` is constructed by
`EmuThread::EmuThread` (lines 26-30: all three flags false), the thread is not started,
and the GL context created by the constructor lives on the application thread. -/
def Sys.constructed : Sys :=
  { exec_cpu_step := false, cpu_running := false, stop_run := false,
    pc := .idle, context := .app, queued := 0, trace := [] }

/-- `QThread::isRunning()`: true from `start()` until the thread has finished or was
terminated. -/
def Sys.isRunning (s : Sys) : Bool :=
  match s.pc with
  | .launched => true
  | .entry => true
  | .loop => true
  | .leaving => true
  | .halting => true
  | .idle => false
  | .finished => false
  | .terminated => false

/-- Append one action to the trace. -/
def Sys.emit (s : Sys) (a : Act) : Sys :=
  { s with trace := s.trace ++ [a] }

/-! ## GRenderWindow::moveContext (lines 135-143) -/

/-- `GRenderWindow::moveContext`, run on thread `current`: `DoneCurrent()`, then, when
compiled against Qt newer than 5.0.0, the context is moved to the emulation thread if the
caller is the application thread and to the application thread otherwise. -/
def GRenderWindow.moveContext (b : Build) (current : Thread) (s : Sys) : Sys :=
  let s := s.emit (.doneCurrent current)
  if b.QT_VERSION > QT_VERSION_CHECK 5 0 0 then
    let target := if current = Thread.app then Thread.emu else Thread.app
    { s.emit (.moveToThread target) with context := target }
  else
    s

/-! ## EmuThread::run (lines 37-57) -/

/-- One step of the emulation thread.

* `launched`: the thread comes to life and emits `started()`.  The signal is connected to
  the slot `moveContext` of the window (line 130); the window lives on the application
  thread, so the call is queued there (`queued`).
* `entry`: line 39, `stop_run = false`.
* `loop`: the loop test of line 40 followed, when it passes, by one pass of the body
  (lines 42-52).
* `leaving`: line 54, `render_window->moveContext()`, called on the emulation thread.
* `halting`: line 56, `Core::Stop()`.

A thread that is not running does nothing. -/
def EmuThread.runStep (b : Build) (s : Sys) : Sys :=
  match s.pc with
  | .launched => { s.emit .emitStarted with queued := s.queued + 1, pc := .entry }
  | .entry => { s with stop_run := false, pc := .loop }
  | .loop =>
    if !s.stop_run then
      if s.cpu_running then
        s.emit .runLoop
      else if s.exec_cpu_step then
        (({ s with exec_cpu_step := false }.emit .singleStep).emit .cpuStepped).emit
          .yieldCurrentThread
      else
        s
    else
      { s with pc := .leaving }
  | .leaving => { GRenderWindow.moveContext b .emu s with pc := .halting }
  | .halting => { s.emit .coreStop with pc := .finished }
  | .idle => s
  | .finished => s
  | .terminated => s

/-! ## EmuThread::Stop (lines 59-83) -/

/-- `QThread::wait(ms)` called on the application thread: the caller blocks while the
emulation thread advances by `k` steps (as many as fit in the interval; a thread that has
finished takes no further steps). -/
def EmuThread.wait (b : Build) (ms : Nat) (k : Nat) (s : Sys) : Sys :=
  (EmuThread.runStep b)^[k] (s.emit (.wait ms))

/-- `QThread::quit()`: asks the thread's event loop to exit.  `run()` never enters an
event loop, so the emulation thread is not affected. -/
def EmuThread.quit (s : Sys) : Sys :=
  s.emit .quit

/-- `QThread::terminate()`: the thread is killed where it stands. -/
def EmuThread.terminate (s : Sys) : Sys :=
  { s.emit .terminate with pc := if s.isRunning then .terminated else s.pc }

/-- The emulation thread advances by `k` steps while the application thread is between
two statements. -/
def EmuThread.advance (b : Build) (k : Nat) (s : Sys) : Sys :=
  (EmuThread.runStep b)^[k] s

/-- How far the emulation thread gets at each point of one call of `Stop` at which the
application thread can be overtaken: the number of steps it takes there.  The fields are
named after the line of `Stop` that has just been executed (`in...` for the time spent
blocked in a `wait`, up to the liveness test that follows it). -/
structure EmuThread.Stop.Schedule where
  /-- between the `isRunning()` test of line 61 and the write of line 66 -/
  afterTest61 : Nat
  /-- between the write of line 66 and the call of `wait(500)` -/
  afterWrite66 : Nat
  /-- while `wait(500)` blocks, up to the test of line 71 -/
  inWait70 : Nat
  /-- between the test of line 71 and the log line 73 -/
  afterTest71 : Nat
  /-- between the log line 73 and `quit()` -/
  afterLog73 : Nat
  /-- between `quit()` and the call of `wait(1000)` -/
  afterQuit74 : Nat
  /-- while `wait(1000)` blocks, up to the test of line 76 -/
  inWait75 : Nat
  /-- between the test of line 76 and the log line 78 -/
  afterTest76 : Nat
  /-- between the log line 78 and `terminate()` -/
  afterLog78 : Nat
deriving DecidableEq, Repr

/-- The schedule in which the emulation thread runs only during the two waits: `k1` steps
during `wait(500)`, `k2` steps during `wait(1000)`. -/
def EmuThread.Stop.Schedule.waits (k1 k2 : Nat) : EmuThread.Stop.Schedule :=
  { afterTest61 := 0, afterWrite66 := 0, inWait70 := k1, afterTest71 := 0, afterLog73 := 0,
    afterQuit74 := 0, inWait75 := k2, afterTest76 := 0, afterLog78 := 0 }

/-- `EmuThread::Stop`, called on the application thread, with the emulation thread
advancing as `σ` says.  (No step is scheduled after a liveness test that found the thread
gone, nor after `terminate()`: a thread that is not running takes no steps.) -/
def EmuThread.Stop (b : Build) (σ : EmuThread.Stop.Schedule) (s : Sys) : Sys :=
  if !s.isRunning then
    s.emit (.log .info .notRunning)
  else
    let s := EmuThread.advance b σ.afterTest61 s
    let s := { s with stop_run := true }
    let s := EmuThread.advance b σ.afterWrite66 s
    let s := EmuThread.wait b 500 σ.inWait70 s
    let s :=
      if s.isRunning then
        let s := EmuThread.advance b σ.afterTest71 s
        let s := s.emit (.log .warn .stillRunning)
        let s := EmuThread.advance b σ.afterLog73 s
        let s := EmuThread.quit s
        let s := EmuThread.advance b σ.afterQuit74 s
        let s := EmuThread.wait b 1000 σ.inWait75 s
        if s.isRunning then
          let s := EmuThread.advance b σ.afterTest76 s
          let s := s.emit (.log .warn .somethingWrong)
          let s := EmuThread.advance b σ.afterLog78 s
          EmuThread.terminate s
        else
          s
      else
        s
    s.emit (.log .info .stopped)

/-- The state at the first liveness check of `Stop` (line 71). -/
def EmuThread.Stop.atFirstCheck (b : Build) (σ : EmuThread.Stop.Schedule) (s : Sys) : Sys :=
  EmuThread.wait b 500 σ.inWait70
    (EmuThread.advance b σ.afterWrite66
      { EmuThread.advance b σ.afterTest61 s with stop_run := true })

/-- The state at the second liveness check of `Stop` (line 76). -/
def EmuThread.Stop.atSecondCheck (b : Build) (σ : EmuThread.Stop.Schedule) (s : Sys) : Sys :=
  EmuThread.wait b 1000 σ.inWait75
    (EmuThread.advance b σ.afterQuit74
      (EmuThread.quit
        (EmuThread.advance b σ.afterLog73
          ((EmuThread.advance b σ.afterTest71 (EmuThread.Stop.atFirstCheck b σ s)).emit
            (.log .warn .stillRunning)))))

/-- The state in which `terminate()` is called (line 79). -/
def EmuThread.Stop.atTerminate (b : Build) (σ : EmuThread.Stop.Schedule) (s : Sys) : Sys :=
  EmuThread.advance b σ.afterLog78
    ((EmuThread.advance b σ.afterTest76 (EmuThread.Stop.atSecondCheck b σ s)).emit
      (.log .warn .somethingWrong))

/-! ## Calls made by the application thread -/

/-- `QThread::start()` on `emu_thread`: nothing happens when the thread is already
running; otherwise a new thread is launched. -/
def EmuThread.start (s : Sys) : Sys :=
  if s.isRunning then s else { s with pc := .launched }

/-- Modelled from the spec: the step request of `EmuThread` (declared in
`bootmanager.hxx`, not part of the sources at hand); it sets `exec_cpu_step` to true. -/
def EmuThread.ExecStep (s : Sys) : Sys :=
  { s with exec_cpu_step := true }

/-- Modelled from the spec: the setter of `cpu_running` (declared in `bootmanager.hxx`,
not part of the sources at hand); any value may be written. -/
def EmuThread.SetCpuRunning (v : Bool) (s : Sys) : Sys :=
  { s with cpu_running := v }

/-- The application thread's event loop runs one queued call of the slot `moveContext`
(posted by `started()`). -/
def GRenderWindow.deliverStarted (b : Build) (s : Sys) : Sys :=
  if s.queued = 0 then s
  else { GRenderWindow.moveContext b .app s with queued := s.queued - 1 }

/-! ## The transition system -/

/-- What can happen next. -/
inductive Ev where
  /-- the application thread calls `emu_thread.start()` -/
  | start
  /-- the application thread calls `emu_thread.Stop()`, and the emulation thread advances
  during the call as `σ` says -/
  | stop (σ : EmuThread.Stop.Schedule)
  /-- the application thread's event loop runs a queued `moveContext` -/
  | deliver
  /-- the emulation thread takes one step -/
  | worker
  /-- the application thread requests a single step -/
  | execStep
  /-- the application thread writes `cpu_running` -/
  | setCpuRunning (v : Bool)
deriving DecidableEq, Repr

/-- One transition. -/
def step (b : Build) (s : Sys) : Ev → Sys
  | .start => EmuThread.start s
  | .stop σ => EmuThread.Stop b σ s
  | .deliver => GRenderWindow.deliverStarted b s
  | .worker => EmuThread.runStep b s
  | .execStep => EmuThread.ExecStep s
  | .setCpuRunning v => EmuThread.SetCpuRunning v s

/-- Run a sequence of transitions. -/
def exec (b : Build) (s : Sys) (es : List Ev) : Sys :=
  es.foldl (step b) s

/-! ## Properties of states and traces -/

/-- A build against Qt 5.2.0, for which the `#if` of `moveContext` is on. -/
def qt520 : Build := { QT_VERSION := QT_VERSION_CHECK 5 2 0 }

/-- A build against Qt 4.8.0, for which the `#if` of `moveContext` is off. -/
def qt480 : Build := { QT_VERSION := QT_VERSION_CHECK 4 8 0 }

/-- The affinity rule: the GL context is with the application thread whenever the
emulation thread is not running, and with the emulation thread only while it runs. -/
def Sys.affinityOk (s : Sys) : Prop :=
  (s.isRunning = false → s.context = Thread.app) ∧
  (s.context = Thread.emu → s.isRunning = true)

/-- Every `Stop` of the sequence is called after the hand-off: the emulation thread, if
it was started, has emitted `started()` (it is not at `launched`), and the slot call that
posted has been run (none is queued). -/
def stopsAfterHandOff (b : Build) : Sys → List Ev → Bool
  | _, [] => true
  | s, .stop σ :: es =>
    decide (s.queued = 0) && decide (s.pc ≠ Pc.launched) &&
      stopsAfterHandOff b (step b s (.stop σ)) es
  | s, e :: es => stopsAfterHandOff b (step b s e) es

/-- Emulation work: `Core::RunLoop()` or `Core::SingleStep()`. -/
def Act.isWork : Act → Bool
  | .runLoop => true
  | .singleStep => true
  | _ => false

/-- Actions issued by `EmuThread::Stop` itself. -/
def Act.byStop : Act → Bool
  | .wait _ => true
  | .quit => true
  | .terminate => true
  | .log _ _ => true
  | _ => false

/-- In the trace, an action satisfying `p` comes before the first action satisfying `q`
(true also when no action satisfies `q`). -/
def precedesFirst (p q : Act → Bool) : List Act → Bool
  | [] => true
  | a :: tr => if p a then true else if q a then false else precedesFirst p q tr

/-- The actions `Stop` itself adds to the trace, in order. -/
def EmuThread.Stop.actions (b : Build) (σ : EmuThread.Stop.Schedule) (s : Sys) : List Act :=
  ((EmuThread.Stop b σ s).trace.drop s.trace.length).filter Act.byStop

/-- Inductive invariant behind the affinity rule, for runs in which every `Stop` comes
after the hand-off and none reaches `terminate()`. -/
def Inv (b : Build) (s : Sys) : Prop :=
  (¬ b.QT_VERSION > QT_VERSION_CHECK 5 0 0 → s.context = Thread.app) ∧
  match s.pc with
  | .idle => s.context = Thread.app ∧ s.queued = 0
  | .finished => s.context = Thread.app ∧ s.queued = 0
  | .launched => s.context = Thread.app ∧ s.queued = 0
  | .entry => s.queued ≤ 1 ∧ (s.queued = 1 → s.context = Thread.app)
  | .loop => s.stop_run = false ∧ s.queued ≤ 1 ∧ (s.queued = 1 → s.context = Thread.app)
  | .leaving => False
  | .halting => False
  | .terminated => False

/-- What holds of the emulation thread while the application thread is inside a `Stop`
that was called after the hand-off. -/
def StopPhase (b : Build) (s : Sys) : Prop :=
  (¬ b.QT_VERSION > QT_VERSION_CHECK 5 0 0 → s.context = Thread.app) ∧
  match s.pc with
  | .launched => False
  | .entry => s.queued = 0
  | .loop => s.queued = 0
  | .leaving => s.queued = 0
  | .halting => s.queued = 0 ∧ s.context = Thread.app
  | .finished => s.queued = 0 ∧ s.context = Thread.app
  | .idle => False
  | .terminated => False

/-- The emulation thread cannot leave the loop on its own: it has not reached the loop
yet, or it is in the loop with the stop flag clear. -/
def Polling (s : Sys) : Prop :=
  s.pc = Pc.launched ∨ s.pc = Pc.entry ∨ (s.pc = Pc.loop ∧ s.stop_run = false)

/-- In the part of the trace after its first `n` actions, `started()` is emitted before
the first emulation work, and a thread that is at the entry of `run()` or in its loop has
emitted it. -/
def StartedFirst (n : Nat) (s : Sys) : Prop :=
  n ≤ s.trace.length ∧
  precedesFirst (fun a => decide (a = Act.emitStarted)) Act.isWork (s.trace.drop n) = true ∧
  (s.pc = Pc.entry ∨ s.pc = Pc.loop → Act.emitStarted ∈ s.trace.drop n)

/-- State `t` continues state `s`: its trace is the trace of `s` followed by further
actions, of which those issued by `Stop` are `acts`. -/
def Continues (s t : Sys) (acts : List Act) : Prop :=
  ∃ l, t.trace = s.trace ++ l ∧ l.filter Act.byStop = acts

/-- Calls of the slot `moveContext` posted so far: those still queued, and those the
application thread has run (each run begins with `DoneCurrent()` on the application
thread). -/
def Sys.posted (s : Sys) : Nat :=
  s.queued + s.trace.count (Act.doneCurrent Thread.app)

/-- Emissions of `started()` so far. -/
def Sys.started (s : Sys) : Nat :=
  s.trace.count Act.emitStarted

/-- Actions of the emulation thread: the emission of `started()`, what `run()` does in
its loop, and what it does after the loop (`moveContext` called on the emulation thread
releases the context there and names the application thread as the target). -/
def Act.byWorker : Act → Bool
  | .emitStarted => true
  | .runLoop => true
  | .singleStep => true
  | .cpuStepped => true
  | .yieldCurrentThread => true
  | .doneCurrent .emu => true
  | .moveToThread .app => true
  | .coreStop => true
  | _ => false

/-- Actions of the emulation thread up to the end of the loop. -/
def Act.preExit : Act → Bool
  | .emitStarted => true
  | .runLoop => true
  | .singleStep => true
  | .cpuStepped => true
  | .yieldCurrentThread => true
  | _ => false

/-- What line 54 (`render_window->moveContext()` on the emulation thread) adds to the
trace in a build against Qt newer than 5.0.0, and in a build against an older Qt. -/
def moveActions (b : Build) : List Act :=
  if b.QT_VERSION > QT_VERSION_CHECK 5 0 0 then
    [.doneCurrent .emu, .moveToThread .app]
  else
    [.doneCurrent .emu]

/-- What the emulation thread does after the loop: line 54, then `Core::Stop()`. -/
def exitActions (b : Build) : List Act :=
  moveActions b ++ [.coreStop]

/-- How far the emulation thread is, as far as the trace tells: no thread is alive
(`outside`), a thread has emitted `started()` and has not released the context (`inRun`),
it has called `DoneCurrent()` (`released`), it has moved the context (`moved`). -/
inductive ExitPhase where
  | outside
  | inRun
  | released
  | moved
deriving DecidableEq, Repr

/-- The order in which the actions of the emulation thread may come.  `started()` opens a
run; emulation work is done only inside a run and before `DoneCurrent()`;
`DoneCurrent()` on the emulation thread comes only inside a run and is followed by the
move of the context to the application thread (Qt newer than 5.0.0) and then by
`Core::Stop()`, which ends the run; `terminate()` ends whatever run there is.  Actions of
the application thread do not matter.  `none` means the order is broken. -/
def ExitPhase.next (b : Build) (ph : ExitPhase) (a : Act) : Option ExitPhase :=
  match a with
  | .terminate => some .outside
  | .emitStarted => if ph = .outside then some .inRun else none
  | .runLoop => if ph = .inRun then some .inRun else none
  | .singleStep => if ph = .inRun then some .inRun else none
  | .cpuStepped => if ph = .inRun then some .inRun else none
  | .yieldCurrentThread => if ph = .inRun then some .inRun else none
  | .doneCurrent .emu => if ph = .inRun then some .released else none
  | .moveToThread .app =>
    if ph = .released ∧ b.QT_VERSION > QT_VERSION_CHECK 5 0 0 then some .moved else none
  | .coreStop =>
    if ph = .moved then some .outside
    else if ph = .released ∧ ¬ b.QT_VERSION > QT_VERSION_CHECK 5 0 0 then some .outside
    else none
  | .doneCurrent .app => some ph
  | .moveToThread .emu => some ph
  | .wait _ => some ph
  | .quit => some ph
  | .log _ _ => some ph

/-- Read a trace from phase `ph`: the phase at its end, or `none` if the order is broken
somewhere. -/
def exitOrder (b : Build) : ExitPhase → List Act → Option ExitPhase
  | ph, [] => some ph
  | ph, a :: tr => (ExitPhase.next b ph a).bind (fun ph' => exitOrder b ph' tr)

/-- The phase that belongs to a position of the emulation thread. -/
def ExitPhase.ofPc (b : Build) : Pc → ExitPhase
  | .idle => .outside
  | .launched => .outside
  | .finished => .outside
  | .terminated => .outside
  | .entry => .inRun
  | .loop => .inRun
  | .leaving => .inRun
  | .halting => if b.QT_VERSION > QT_VERSION_CHECK 5 0 0 then .moved else .released

/-- During a `Stop` that began when the trace had `n` actions and the thread had not left
the loop: the actions of the emulation thread since then are actions of the loop,
followed by as much of `exitActions` as the thread's position says. -/
def ExitShape (b : Build) (n : Nat) (t : Sys) : Prop :=
  n ≤ t.trace.length ∧
  match t.pc with
  | .launched => ∀ a ∈ (t.trace.drop n).filter Act.byWorker, a.preExit = true
  | .entry => ∀ a ∈ (t.trace.drop n).filter Act.byWorker, a.preExit = true
  | .loop => ∀ a ∈ (t.trace.drop n).filter Act.byWorker, a.preExit = true
  | .leaving => ∀ a ∈ (t.trace.drop n).filter Act.byWorker, a.preExit = true
  | .halting => ∃ pre, (t.trace.drop n).filter Act.byWorker = pre ++ moveActions b ∧
      ∀ a ∈ pre, a.preExit = true
  | .finished => ∃ pre, (t.trace.drop n).filter Act.byWorker = pre ++ exitActions b ∧
      ∀ a ∈ pre, a.preExit = true
  | .idle => False
  | .terminated => False

/-! ## Window geometry (lines 203-229) -/

/-- The two `QWidget` members the window relies on: `QWidget::saveGeometry`, which
serialises the widget's current geometry, and `QWidget::restoreGeometry`, which applies a
serialised geometry to the widget (given the current one, it yields the new one). -/
structure QWidget (G B : Type) where
  saveGeometry : G → B
  restoreGeometry : B → G → G

/-- The `QWidget` pair round-trips: restoring what was saved from `g` yields `g`. -/
def QWidget.RoundTrips {G B : Type} (q : QWidget G B) : Prop :=
  ∀ g current : G, q.restoreGeometry (q.saveGeometry g) current = g

/-- The part of `GRenderWindow` the geometry functions touch: `parent` is `parent()`
(`none` for `NULL`), `live` is the widget's actual geometry, `geometry` is the member
`QByteArray geometry`. -/
structure GRenderWindow (G B : Type) where
  parent : Option Nat
  live : G
  geometry : B

/-- `GRenderWindow::BackupGeometry` (lines 203-206). -/
def GRenderWindow.BackupGeometry {G B : Type} (q : QWidget G B) (w : GRenderWindow G B) :
    GRenderWindow G B :=
  { w with geometry := q.saveGeometry w.live }

/-- `GRenderWindow::RestoreGeometry` (lines 208-212). -/
def GRenderWindow.RestoreGeometry {G B : Type} (q : QWidget G B) (w : GRenderWindow G B) :
    GRenderWindow G B :=
  { w with live := q.restoreGeometry w.geometry w.live }

/-- `GRenderWindow::restoreGeometry` (lines 214-219). -/
def GRenderWindow.restoreGeometry {G B : Type} (q : QWidget G B) (geometry : B)
    (w : GRenderWindow G B) : GRenderWindow G B :=
  let w := { w with live := q.restoreGeometry geometry w.live }
  GRenderWindow.BackupGeometry q w

/-- `GRenderWindow::saveGeometry` (lines 221-229): the returned bytes and the window
afterwards. -/
def GRenderWindow.saveGeometry {G B : Type} (q : QWidget G B) (w : GRenderWindow G B) :
    B × GRenderWindow G B :=
  if w.parent = none then
    (q.saveGeometry w.live, w)
  else
    (w.geometry, w)

/-- The geometry part of the constructor `GRenderWindow::GRenderWindow` (lines 112-133):
the widget is created with the given parent, `resized` is its geometry after
`resize(...)` and the layout calls, the member `geometry` starts as an empty byte array,
and the last statement is `BackupGeometry()`. -/
def GRenderWindow.construct {G B : Type} (q : QWidget G B) (parent : Option Nat)
    (resized : G) (empty : B) : GRenderWindow G B :=
  GRenderWindow.BackupGeometry q { parent := parent, live := resized, geometry := empty }

/-- `restoreGeometry(saveGeometry())`. -/
def GRenderWindow.restoreSaved {G B : Type} (q : QWidget G B) (w : GRenderWindow G B) :
    GRenderWindow G B :=
  GRenderWindow.restoreGeometry q (GRenderWindow.saveGeometry q w).1
    (GRenderWindow.saveGeometry q w).2

/-- A concrete `QWidget` pair over numbers: the serialised form of a geometry is the
geometry itself. -/
def QWidget.plain : QWidget Nat Nat :=
  { saveGeometry := fun g => g, restoreGeometry := fun bytes _ => bytes }

/-! ## Basic facts about the steps -/

@[simp] theorem emit_pc (s : Sys) (a : Act) : (s.emit a).pc = s.pc := rfl

@[simp] theorem emit_context (s : Sys) (a : Act) : (s.emit a).context = s.context := rfl

@[simp] theorem emit_queued (s : Sys) (a : Act) : (s.emit a).queued = s.queued := rfl

@[simp] theorem emit_stop_run (s : Sys) (a : Act) : (s.emit a).stop_run = s.stop_run := rfl

@[simp] theorem emit_cpu_running (s : Sys) (a : Act) :
    (s.emit a).cpu_running = s.cpu_running := rfl

@[simp] theorem emit_exec_cpu_step (s : Sys) (a : Act) :
    (s.emit a).exec_cpu_step = s.exec_cpu_step := rfl

@[simp] theorem emit_trace (s : Sys) (a : Act) : (s.emit a).trace = s.trace ++ [a] := rfl

@[simp] theorem emit_isRunning (s : Sys) (a : Act) : (s.emit a).isRunning = s.isRunning := rfl

/-- A step of the emulation thread only appends to the trace, and nothing that `Stop`
issues. -/
theorem runStep_trace (b : Build) (s : Sys) :
    ∃ l, (EmuThread.runStep b s).trace = s.trace ++ l ∧ l.filter Act.byStop = [] := by
  obtain ⟨e, c, sr, pc, ctx, q, tr⟩ := s
  cases pc
  case idle => exact ⟨[], by simp [EmuThread.runStep], rfl⟩
  case launched => exact ⟨[.emitStarted], by simp [EmuThread.runStep, Sys.emit], rfl⟩
  case entry => exact ⟨[], by simp [EmuThread.runStep], rfl⟩
  case loop =>
    cases sr
    · cases c
      · cases e
        · exact ⟨[], by simp [EmuThread.runStep], rfl⟩
        · exact ⟨[.singleStep, .cpuStepped, .yieldCurrentThread],
            by simp [EmuThread.runStep, Sys.emit], rfl⟩
      · exact ⟨[.runLoop], by simp [EmuThread.runStep, Sys.emit], rfl⟩
    · exact ⟨[], by simp [EmuThread.runStep], rfl⟩
  case leaving =>
    by_cases hq : b.QT_VERSION > QT_VERSION_CHECK 5 0 0
    · exact ⟨[.doneCurrent .emu, .moveToThread .app],
        by simp [EmuThread.runStep, GRenderWindow.moveContext, Sys.emit, hq], rfl⟩
    · exact ⟨[.doneCurrent .emu],
        by simp [EmuThread.runStep, GRenderWindow.moveContext, Sys.emit, hq], rfl⟩
  case halting => exact ⟨[.coreStop], by simp [EmuThread.runStep, Sys.emit], rfl⟩
  case finished => exact ⟨[], by simp [EmuThread.runStep], rfl⟩
  case terminated => exact ⟨[], by simp [EmuThread.runStep], rfl⟩

/-- Any number of steps of the emulation thread only appends to the trace, and nothing
that `Stop` issues. -/
theorem iterate_runStep_trace (b : Build) (k : Nat) (s : Sys) :
    ∃ l, ((EmuThread.runStep b)^[k] s).trace = s.trace ++ l ∧ l.filter Act.byStop = [] := by
  induction k generalizing s with
  | zero => exact ⟨[], by simp, rfl⟩
  | succ k ih =>
    obtain ⟨l1, h1, f1⟩ := runStep_trace b s
    obtain ⟨l2, h2, f2⟩ := ih (EmuThread.runStep b s)
    refine ⟨l1 ++ l2, ?_, ?_⟩
    · rw [Function.iterate_succ_apply, h2, h1, List.append_assoc]
    · simp [List.filter_append, f1, f2]

/-- A property kept by every step of the emulation thread is kept by any number of them. -/
theorem iterate_runStep_preserves (b : Build) (P : Sys → Prop)
    (hrun : ∀ s, P s → P (EmuThread.runStep b s)) (k : Nat) (s : Sys) (h : P s) :
    P ((EmuThread.runStep b)^[k] s) := by
  induction k generalizing s with
  | zero => exact h
  | succ k ih =>
    rw [Function.iterate_succ_apply]
    exact ih _ (hrun s h)

/-- The shape of `Stop` on a running thread, in terms of the two liveness checks. -/
theorem Stop_running (b : Build) (σ : EmuThread.Stop.Schedule) (s : Sys)
    (h : s.isRunning = true) :
    EmuThread.Stop b σ s =
      if (EmuThread.Stop.atFirstCheck b σ s).isRunning then
        if (EmuThread.Stop.atSecondCheck b σ s).isRunning then
          (EmuThread.terminate (EmuThread.Stop.atTerminate b σ s)).emit (.log .info .stopped)
        else (EmuThread.Stop.atSecondCheck b σ s).emit (.log .info .stopped)
      else (EmuThread.Stop.atFirstCheck b σ s).emit (.log .info .stopped) := by
  simp only [EmuThread.Stop, h, EmuThread.Stop.atFirstCheck, EmuThread.Stop.atSecondCheck,
    EmuThread.Stop.atTerminate]
  split_ifs <;> simp_all

/-- A property kept by the steps of the emulation thread, by the log lines, `wait` and
`quit()` of `Stop`, by the write of `stop_run` and by `terminate()` is kept by `Stop`. -/
theorem Stop_preserves (b : Build) (P : Sys → Prop)
    (hrun : ∀ s, P s → P (EmuThread.runStep b s))
    (hemit : ∀ s a, Act.byStop a = true → a ≠ Act.terminate → P s → P (s.emit a))
    (hflag : ∀ s, P s → P { s with stop_run := true })
    (hterm : ∀ s, P s → P (EmuThread.terminate s))
    (σ : EmuThread.Stop.Schedule) (s : Sys) (h : P s) : P (EmuThread.Stop b σ s) := by
  have hadv : ∀ k t, P t → P (EmuThread.advance b k t) := fun k t ht =>
    iterate_runStep_preserves b P hrun k t ht
  have hwait : ∀ ms k t, P t → P (EmuThread.wait b ms k t) := fun ms k t ht =>
    iterate_runStep_preserves b P hrun k _ (hemit _ _ rfl (by simp) ht)
  have h1 : P (EmuThread.Stop.atFirstCheck b σ s) :=
    hwait _ _ _ (hadv _ _ (hflag _ (hadv _ _ h)))
  have h2 : P (EmuThread.Stop.atSecondCheck b σ s) :=
    hwait _ _ _ (hadv _ _ (hemit _ _ rfl (by simp) (hadv _ _
      (hemit _ _ rfl (by simp) (hadv _ _ h1)))))
  have h3 : P (EmuThread.Stop.atTerminate b σ s) :=
    hadv _ _ (hemit _ _ rfl (by simp) (hadv _ _ h2))
  cases hr : s.isRunning
  · have e : EmuThread.Stop b σ s = s.emit (.log .info .notRunning) := by
      simp [EmuThread.Stop, hr]
    rw [e]
    exact hemit _ _ rfl (by simp) h
  · rw [Stop_running b σ s hr]
    split_ifs
    · exact hemit _ _ rfl (by simp) (hterm _ h3)
    · exact hemit _ _ rfl (by simp) h2
    · exact hemit _ _ rfl (by simp) h1

/-- `Stop` returns only when the thread is not running. -/
theorem Stop_not_running (b : Build) (σ : EmuThread.Stop.Schedule) (s : Sys) :
    (EmuThread.Stop b σ s).isRunning = false := by
  cases hr : s.isRunning
  · simp [EmuThread.Stop, hr]
  · rw [Stop_running b σ s hr]
    split_ifs with c1 c2
    · simp only [emit_isRunning, EmuThread.terminate]
      cases hp : (EmuThread.Stop.atTerminate b σ s).pc <;> simp [Sys.isRunning, hp]
    · simpa using c2
    · simpa using c1

/-! ## The actions of Stop in the trace -/

theorem continues_refl (s : Sys) : Continues s s [] := ⟨[], by simp, rfl⟩

theorem continues_runStep (b : Build) (s t : Sys) (acts : List Act) (h : Continues s t acts) :
    Continues s (EmuThread.runStep b t) acts := by
  obtain ⟨l, hl, hf⟩ := h
  obtain ⟨m, hm, hg⟩ := runStep_trace b t
  exact ⟨l ++ m, by rw [hm, hl, List.append_assoc], by simp [List.filter_append, hf, hg]⟩

theorem continues_advance (b : Build) (k : Nat) (s t : Sys) (acts : List Act)
    (h : Continues s t acts) : Continues s (EmuThread.advance b k t) acts :=
  iterate_runStep_preserves b (fun u => Continues s u acts)
    (fun u hu => continues_runStep b s u acts hu) k t h

theorem continues_emit (s t : Sys) (acts : List Act) (a : Act) (ha : Act.byStop a = true)
    (h : Continues s t acts) : Continues s (t.emit a) (acts ++ [a]) := by
  obtain ⟨l, hl, hf⟩ := h
  exact ⟨l ++ [a], by simp [hl], by simp [List.filter_append, hf, ha]⟩

theorem continues_wait (b : Build) (ms k : Nat) (s t : Sys) (acts : List Act)
    (h : Continues s t acts) : Continues s (EmuThread.wait b ms k t) (acts ++ [.wait ms]) :=
  continues_advance b k s _ _ (continues_emit s t acts (.wait ms) rfl h)

theorem continues_terminate (s t : Sys) (acts : List Act) (h : Continues s t acts) :
    Continues s (EmuThread.terminate t) (acts ++ [.terminate]) := by
  obtain ⟨l, hl, hf⟩ := h
  exact ⟨l ++ [.terminate], by simp [EmuThread.terminate, hl],
    by simp [List.filter_append, hf, Act.byStop]⟩

theorem continues_atFirstCheck (b : Build) (σ : EmuThread.Stop.Schedule) (s : Sys) :
    Continues s (EmuThread.Stop.atFirstCheck b σ s) [.wait 500] := by
  have h0 : Continues s { EmuThread.advance b σ.afterTest61 s with stop_run := true } [] :=
    continues_advance b _ s s [] (continues_refl s)
  exact continues_wait b 500 _ s _ [] (continues_advance b _ s _ [] h0)

theorem continues_atSecondCheck (b : Build) (σ : EmuThread.Stop.Schedule) (s : Sys) :
    Continues s (EmuThread.Stop.atSecondCheck b σ s)
      [.wait 500, .log .warn .stillRunning, .quit, .wait 1000] := by
  have h1 := continues_atFirstCheck b σ s
  have h2 := continues_emit s _ _ (.log .warn .stillRunning) rfl
    (continues_advance b σ.afterTest71 s _ _ h1)
  have h3 := continues_emit s _ _ .quit rfl (continues_advance b σ.afterLog73 s _ _ h2)
  exact continues_wait b 1000 _ s _ _ (continues_advance b σ.afterQuit74 s _ _ h3)

theorem continues_atTerminate (b : Build) (σ : EmuThread.Stop.Schedule) (s : Sys) :
    Continues s (EmuThread.Stop.atTerminate b σ s)
      [.wait 500, .log .warn .stillRunning, .quit, .wait 1000, .log .warn .somethingWrong] := by
  have h2 := continues_atSecondCheck b σ s
  exact continues_advance b σ.afterLog78 s _ _
    (continues_emit s _ _ (.log .warn .somethingWrong) rfl
      (continues_advance b σ.afterTest76 s _ _ h2))

theorem actions_of_continues (b : Build) (σ : EmuThread.Stop.Schedule) (s : Sys)
    (acts : List Act) (h : Continues s (EmuThread.Stop b σ s) acts) :
    EmuThread.Stop.actions b σ s = acts := by
  obtain ⟨l, hl, hf⟩ := h
  rw [EmuThread.Stop.actions, hl, List.drop_left, hf]

/-- The actions of `Stop` on a running thread, by the outcome of the two checks. -/
theorem Stop_actions_eq (b : Build) (σ : EmuThread.Stop.Schedule) (s : Sys)
    (h : s.isRunning = true) :
    EmuThread.Stop.actions b σ s =
      if (EmuThread.Stop.atFirstCheck b σ s).isRunning then
        if (EmuThread.Stop.atSecondCheck b σ s).isRunning then
          [.wait 500, .log .warn .stillRunning, .quit, .wait 1000,
            .log .warn .somethingWrong, .terminate, .log .info .stopped]
        else
          [.wait 500, .log .warn .stillRunning, .quit, .wait 1000, .log .info .stopped]
      else
        [.wait 500, .log .info .stopped] := by
  apply actions_of_continues
  rw [Stop_running b σ s h]
  split_ifs
  · exact continues_emit s _ _ (.log .info .stopped) rfl
      (continues_terminate s _ _ (continues_atTerminate b σ s))
  · exact continues_emit s _ _ (.log .info .stopped) rfl (continues_atSecondCheck b σ s)
  · exact continues_emit s _ _ (.log .info .stopped) rfl (continues_atFirstCheck b σ s)

/-! ## Stop: escalation order (C2) and the idle case (C9) -/

/-- C2. For a running thread and any progress of the emulation thread during the call,
the actions `Stop` performs are fixed by the two liveness checks: thread gone at
the first check - only `wait(500)`; gone at the second - `wait(500)`, `quit()`,
`wait(1000)`; still alive at both - additionally `terminate()`.  Hence `terminate()`
never comes before `quit()`, it is issued exactly when both checks find the thread
running and then exactly once, and a thread that exited within the first wait sees
neither `quit()` nor `terminate()`. -/
theorem Stop_escalation_order (b : Build) (σ : EmuThread.Stop.Schedule) (s : Sys)
    (h : s.isRunning = true) :
    (EmuThread.Stop.actions b σ s =
      if (EmuThread.Stop.atFirstCheck b σ s).isRunning then
        if (EmuThread.Stop.atSecondCheck b σ s).isRunning then
          [.wait 500, .log .warn .stillRunning, .quit, .wait 1000,
            .log .warn .somethingWrong, .terminate, .log .info .stopped]
        else
          [.wait 500, .log .warn .stillRunning, .quit, .wait 1000, .log .info .stopped]
      else
        [.wait 500, .log .info .stopped]) ∧
    precedesFirst (fun a => decide (a = Act.quit)) (fun a => decide (a = Act.terminate))
      (EmuThread.Stop.actions b σ s) = true ∧
    (Act.terminate ∈ EmuThread.Stop.actions b σ s ↔
      ((EmuThread.Stop.atFirstCheck b σ s).isRunning = true ∧
        (EmuThread.Stop.atSecondCheck b σ s).isRunning = true)) ∧
    (EmuThread.Stop.actions b σ s).count Act.terminate ≤ 1 ∧
    ((EmuThread.Stop.atFirstCheck b σ s).isRunning = true →
      (EmuThread.Stop.atSecondCheck b σ s).isRunning = true →
      (EmuThread.Stop.actions b σ s).count Act.terminate = 1) ∧
    ((EmuThread.Stop.atFirstCheck b σ s).isRunning = false →
      Act.quit ∉ EmuThread.Stop.actions b σ s ∧
      Act.terminate ∉ EmuThread.Stop.actions b σ s) := by
  rw [Stop_actions_eq b σ s h]
  cases (EmuThread.Stop.atFirstCheck b σ s).isRunning <;>
    cases (EmuThread.Stop.atSecondCheck b σ s).isRunning <;>
    simp [precedesFirst]

/-- C2, at a concrete input: a thread stuck in the loop (no progress during the call) is
stopped on Qt 5.2.0. -/
theorem Stop_escalation_order_witness :
    (exec qt520 Sys.constructed [.start, .worker, .deliver, .worker]).isRunning = true ∧
    EmuThread.Stop.actions qt520 (.waits 0 0)
        (exec qt520 Sys.constructed [.start, .worker, .deliver, .worker]) =
      [.wait 500, .log .warn .stillRunning, .quit, .wait 1000,
        .log .warn .somethingWrong, .terminate, .log .info .stopped] :=
  ⟨by decide,
    ((Stop_escalation_order qt520 (.waits 0 0)
      (exec qt520 Sys.constructed [.start, .worker, .deliver, .worker]) (by decide)).1).trans
      (by decide)⟩

/-- C9. On a thread that is not running, `Stop` changes none of `stop_run`,
`cpu_running`, `exec_cpu_step`, the thread's position, the context affinity or the queued
slot calls; the only thing it adds to the trace is one info-level log line: no `wait`, no
`quit()`, no `terminate()`. -/
theorem Stop_idle_noop (b : Build) (σ : EmuThread.Stop.Schedule) (s : Sys)
    (h : s.isRunning = false) :
    EmuThread.Stop b σ s = { s with trace := s.trace ++ [.log .info .notRunning] } ∧
    (EmuThread.Stop b σ s).stop_run = s.stop_run ∧
    (EmuThread.Stop b σ s).cpu_running = s.cpu_running ∧
    (EmuThread.Stop b σ s).exec_cpu_step = s.exec_cpu_step ∧
    (EmuThread.Stop b σ s).context = s.context ∧
    (EmuThread.Stop b σ s).pc = s.pc ∧
    EmuThread.Stop.actions b σ s = [.log .info .notRunning] := by
  have e : EmuThread.Stop b σ s = { s with trace := s.trace ++ [.log .info .notRunning] } := by
    simp [EmuThread.Stop, h, Sys.emit]
  refine ⟨e, ?_, ?_, ?_, ?_, ?_, ?_⟩ <;> simp [EmuThread.Stop.actions, e, Act.byStop]

/-- C9, at a concrete input: `Stop` on the freshly constructed (never started) thread. -/
theorem Stop_idle_noop_witness :
    Sys.constructed.isRunning = false ∧
    EmuThread.Stop qt520 (.waits 7 7) Sys.constructed =
      { Sys.constructed with trace := [.log .info .notRunning] } :=
  ⟨by decide, (Stop_idle_noop qt520 (.waits 7 7) Sys.constructed (by decide)).1⟩

/-! ## Single steps against step requests (C3) -/

/-- A thread that has finished takes no further steps. -/
theorem iterate_runStep_finished (b : Build) (n : Nat) (s : Sys) (h : s.pc = Pc.finished) :
    (EmuThread.runStep b)^[n] s = s := by
  induction n with
  | zero => rfl
  | succ n ih =>
    have e : EmuThread.runStep b s = s := by
      obtain ⟨e, c, sr, pc, ctx, q, tr⟩ := s
      simp only at h
      subst h
      rfl
    rw [Function.iterate_succ_apply, e, ih]

/-- A thread in the loop that finds the stop flag set takes three more steps, and they add
`exitActions` to the trace. -/
theorem runStep_three (b : Build) (t : Sys) (hpc : t.pc = Pc.loop)
    (hstop : t.stop_run = true) :
    ((EmuThread.runStep b)^[3] t).pc = Pc.finished ∧
    ((EmuThread.runStep b)^[3] t).trace = t.trace ++ exitActions b ∧
    (∀ n, (EmuThread.runStep b)^[3 + n] t = (EmuThread.runStep b)^[3] t) := by
  obtain ⟨e, c, sr, pc, ctx, q, tr⟩ := t
  simp only at hpc hstop
  subst hpc hstop
  have hfin : ((EmuThread.runStep b)^[3]
      { exec_cpu_step := e, cpu_running := c, stop_run := true, pc := Pc.loop,
        context := ctx, queued := q, trace := tr }).pc = Pc.finished := by
    by_cases hq : b.QT_VERSION > QT_VERSION_CHECK 5 0 0 <;>
      simp [Function.iterate_succ_apply, EmuThread.runStep, GRenderWindow.moveContext,
        Sys.emit, hq]
  refine ⟨hfin, ?_, ?_⟩
  · by_cases hq : b.QT_VERSION > QT_VERSION_CHECK 5 0 0 <;>
      simp [Function.iterate_succ_apply, EmuThread.runStep, GRenderWindow.moveContext,
        Sys.emit, exitActions, moveActions, hq]
  · intro n
    rw [Nat.add_comm, Function.iterate_add_apply]
    exact iterate_runStep_finished b n _ hfin

theorem exitOrder_append (b : Build) (ph : ExitPhase) (tr l : List Act) :
    exitOrder b ph (tr ++ l) = (exitOrder b ph tr).bind (fun p => exitOrder b p l) := by
  induction tr generalizing ph with
  | nil => simp [exitOrder]
  | cons a tr ih =>
    simp only [List.cons_append, exitOrder]
    cases ExitPhase.next b ph a with
    | none => simp
    | some p => simpa using ih p

/-- Extending the trace by actions that lead from the phase of the old position to the
phase of the new one keeps the order. -/
theorem exitOrder_extend (b : Build) (s t : Sys) (l : List Act)
    (h : exitOrder b .outside s.trace = some (ExitPhase.ofPc b s.pc))
    (htr : t.trace = s.trace ++ l)
    (hl : exitOrder b (ExitPhase.ofPc b s.pc) l = some (ExitPhase.ofPc b t.pc)) :
    exitOrder b .outside t.trace = some (ExitPhase.ofPc b t.pc) := by
  rw [htr, exitOrder_append, h]
  simpa using hl

theorem runStep_exitOrder (b : Build) (s : Sys)
    (h : exitOrder b .outside s.trace = some (ExitPhase.ofPc b s.pc)) :
    exitOrder b .outside (EmuThread.runStep b s).trace =
      some (ExitPhase.ofPc b (EmuThread.runStep b s).pc) := by
  obtain ⟨e, c, sr, pc, ctx, q, tr⟩ := s
  cases pc with
  | launched =>
    exact exitOrder_extend b _ _ [.emitStarted] h (by simp [EmuThread.runStep, Sys.emit])
      (by simp [EmuThread.runStep, exitOrder, ExitPhase.next, ExitPhase.ofPc])
  | entry =>
    exact exitOrder_extend b _ _ [] h (by simp [EmuThread.runStep])
      (by simp [EmuThread.runStep, exitOrder, ExitPhase.ofPc])
  | loop =>
    cases sr
    · cases c
      · cases e
        · exact exitOrder_extend b _ _ [] h (by simp [EmuThread.runStep])
            (by simp [EmuThread.runStep, exitOrder, ExitPhase.ofPc])
        · exact exitOrder_extend b _ _ [.singleStep, .cpuStepped, .yieldCurrentThread] h
            (by simp [EmuThread.runStep, Sys.emit])
            (by simp [EmuThread.runStep, exitOrder, ExitPhase.next, ExitPhase.ofPc])
      · exact exitOrder_extend b _ _ [.runLoop] h (by simp [EmuThread.runStep, Sys.emit])
          (by simp [EmuThread.runStep, exitOrder, ExitPhase.next, ExitPhase.ofPc])
    · exact exitOrder_extend b _ _ [] h (by simp [EmuThread.runStep])
        (by simp [EmuThread.runStep, exitOrder, ExitPhase.ofPc])
  | leaving =>
    by_cases hq : b.QT_VERSION > QT_VERSION_CHECK 5 0 0
    · exact exitOrder_extend b _ _ [.doneCurrent .emu, .moveToThread .app] h
        (by simp [EmuThread.runStep, GRenderWindow.moveContext, Sys.emit, hq])
        (by simp [EmuThread.runStep, exitOrder, ExitPhase.next, ExitPhase.ofPc, hq])
    · exact exitOrder_extend b _ _ [.doneCurrent .emu] h
        (by simp [EmuThread.runStep, GRenderWindow.moveContext, Sys.emit, hq])
        (by simp [EmuThread.runStep, exitOrder, ExitPhase.next, ExitPhase.ofPc, hq])
  | halting =>
    by_cases hq : b.QT_VERSION > QT_VERSION_CHECK 5 0 0
    · exact exitOrder_extend b _ _ [.coreStop] h (by simp [EmuThread.runStep, Sys.emit])
        (by simp [EmuThread.runStep, exitOrder, ExitPhase.next, ExitPhase.ofPc, hq])
    · exact exitOrder_extend b _ _ [.coreStop] h (by simp [EmuThread.runStep, Sys.emit])
        (by simp [EmuThread.runStep, exitOrder, ExitPhase.next, ExitPhase.ofPc, hq])
  | idle => exact h
  | finished => exact h
  | terminated => exact h

theorem step_exitOrder (b : Build) (s : Sys) (e : Ev)
    (h : exitOrder b .outside s.trace = some (ExitPhase.ofPc b s.pc)) :
    exitOrder b .outside (step b s e).trace = some (ExitPhase.ofPc b (step b s e).pc) := by
  cases e with
  | start =>
    simp only [step, EmuThread.start]
    split_ifs with hr
    · exact h
    · refine exitOrder_extend b s _ [] h (by simp) ?_
      obtain ⟨x, c, sr, pc, ctx, q, tr⟩ := s
      cases pc <;> simp_all [Sys.isRunning, exitOrder, ExitPhase.ofPc]
  | stop σ =>
    refine Stop_preserves b
      (fun t => exitOrder b .outside t.trace = some (ExitPhase.ofPc b t.pc))
      (runStep_exitOrder b) ?_ ?_ ?_ σ s h
    · intro t a ha hne ht
      refine exitOrder_extend b t _ [a] ht rfl ?_
      cases a <;> simp [Act.byStop] at ha <;> simp_all [exitOrder, ExitPhase.next]
    · intro t ht
      exact ht
    · intro t ht
      refine exitOrder_extend b t _ [.terminate] ht (by simp [EmuThread.terminate]) ?_
      obtain ⟨x, c, sr, pc, ctx, q, tr⟩ := t
      cases pc <;>
        simp [EmuThread.terminate, Sys.isRunning, Sys.emit, exitOrder, ExitPhase.next,
          ExitPhase.ofPc]
  | deliver =>
    simp only [step, GRenderWindow.deliverStarted]
    split_ifs
    · exact h
    · by_cases hq : b.QT_VERSION > QT_VERSION_CHECK 5 0 0
      · exact exitOrder_extend b s _ [.doneCurrent .app, .moveToThread .emu] h
          (by simp [GRenderWindow.moveContext, Sys.emit, hq])
          (by simp [GRenderWindow.moveContext, exitOrder, ExitPhase.next, hq])
      · exact exitOrder_extend b s _ [.doneCurrent .app] h
          (by simp [GRenderWindow.moveContext, Sys.emit, hq])
          (by simp [GRenderWindow.moveContext, exitOrder, ExitPhase.next, hq])
  | worker => exact runStep_exitOrder b s h
  | execStep => exact h
  | setCpuRunning v => exact h

theorem exec_exitOrder (b : Build) (es : List Ev) (s : Sys)
    (h : exitOrder b .outside s.trace = some (ExitPhase.ofPc b s.pc)) :
    exitOrder b .outside (exec b s es).trace = some (ExitPhase.ofPc b (exec b s es).pc) := by
  induction es generalizing s with
  | nil => exact h
  | cons e es ih => exact ih (step b s e) (step_exitOrder b s e h)

/-- Between two events the emulation thread is never past the loop and still running,
and in the loop the stop flag is clear: the loop is left only during a `Stop`. -/
theorem exec_in_loop (b : Build) (es : List Ev) (s : Sys)
    (h : s.pc ≠ Pc.leaving ∧ s.pc ≠ Pc.halting ∧ (s.pc = Pc.loop → s.stop_run = false)) :
    (exec b s es).pc ≠ Pc.leaving ∧ (exec b s es).pc ≠ Pc.halting ∧
      ((exec b s es).pc = Pc.loop → (exec b s es).stop_run = false) := by
  induction es generalizing s with
  | nil => exact h
  | cons e es ih =>
    refine ih (step b s e) ?_
    cases e with
    | stop σ =>
      have hn := Stop_not_running b σ s
      simp only [step]
      cases hp : (EmuThread.Stop b σ s).pc <;> simp_all [Sys.isRunning]
    | start =>
      obtain ⟨x, c, sr, pc, ctx, q, tr⟩ := s
      cases pc <;> simp_all [step, EmuThread.start, Sys.isRunning]
    | deliver =>
      simp only [step, GRenderWindow.deliverStarted, GRenderWindow.moveContext]
      split_ifs <;> simpa using h
    | worker =>
      obtain ⟨x, c, sr, pc, ctx, q, tr⟩ := s
      cases pc with
      | loop =>
        obtain ⟨_, _, h3⟩ := h
        have hsr : sr = false := h3 rfl
        subst hsr
        cases c <;> cases x <;> simp [step, EmuThread.runStep, Sys.emit]
      | leaving => exact absurd rfl h.1
      | halting => exact absurd rfl h.2.1
      | _ => simp [step, EmuThread.runStep, Sys.emit]
    | execStep => simpa [step, EmuThread.ExecStep] using h
    | setCpuRunning v => simpa [step, EmuThread.SetCpuRunning] using h

theorem drop_filter_append (f : Act → Bool) (n : Nat) (tr l : List Act)
    (hn : n ≤ tr.length) :
    ((tr ++ l).drop n).filter f = (tr.drop n).filter f ++ l.filter f := by
  rw [List.drop_append_of_le_length hn, List.filter_append]

/-- Appending actions that are not the emulation thread's, at an unchanged position,
keeps `ExitShape`. -/
theorem exitShape_append (b : Build) (n : Nat) (s t : Sys) (l : List Act)
    (h : ExitShape b n s) (htr : t.trace = s.trace ++ l)
    (hl : l.filter Act.byWorker = []) (hpc : t.pc = s.pc) : ExitShape b n t := by
  obtain ⟨h1, h2⟩ := h
  have hf : (t.trace.drop n).filter Act.byWorker = (s.trace.drop n).filter Act.byWorker := by
    rw [htr, drop_filter_append _ _ _ _ h1, hl, List.append_nil]
  refine ⟨by rw [htr, List.length_append]; omega, ?_⟩
  rw [hpc]
  cases hp : s.pc <;> simp only [hp] at h2 ⊢ <;> first | exact h2 | (rw [hf]; exact h2)

theorem runStep_exitShape (b : Build) (n : Nat) (s : Sys) (h : ExitShape b n s) :
    ExitShape b n (EmuThread.runStep b s) := by
  obtain ⟨e, c, sr, pc, ctx, q, tr⟩ := s
  obtain ⟨h1, h2⟩ := h
  simp only at h1
  have hlen : ∀ l : List Act, n ≤ (tr ++ l).length := by
    intro l
    rw [List.length_append]
    omega
  cases pc with
  | launched =>
    simp only at h2
    refine ⟨by simpa [EmuThread.runStep, Sys.emit] using hlen [.emitStarted], ?_⟩
    simp only [EmuThread.runStep, Sys.emit]
    rw [drop_filter_append _ _ _ _ h1]
    intro a ha
    rcases List.mem_append.mp ha with ha | ha
    · exact h2 a ha
    · simp [Act.byWorker] at ha
      subst ha
      rfl
  | entry => exact ⟨h1, h2⟩
  | loop =>
    simp only at h2
    cases sr
    · cases c
      · cases e
        · exact ⟨h1, h2⟩
        · have hl3 := hlen [.singleStep, .cpuStepped, .yieldCurrentThread]
          refine ⟨by simpa [EmuThread.runStep, Sys.emit] using hl3, ?_⟩
          simp only [EmuThread.runStep, Sys.emit, Bool.not_false, if_true, Bool.false_eq_true,
            if_false, List.append_assoc, List.singleton_append]
          rw [drop_filter_append _ _ _ _ h1]
          intro a ha
          rcases List.mem_append.mp ha with ha | ha
          · exact h2 a ha
          · simp [Act.byWorker] at ha
            rcases ha with rfl | rfl | rfl <;> rfl
      · refine ⟨by simpa [EmuThread.runStep, Sys.emit] using hlen [.runLoop], ?_⟩
        simp only [EmuThread.runStep, Sys.emit, Bool.not_false, if_true]
        rw [drop_filter_append _ _ _ _ h1]
        intro a ha
        rcases List.mem_append.mp ha with ha | ha
        · exact h2 a ha
        · simp [Act.byWorker] at ha
          subst ha
          rfl
    · exact ⟨h1, h2⟩
  | leaving =>
    simp only at h2
    have hm : (EmuThread.runStep b
        { exec_cpu_step := e, cpu_running := c, stop_run := sr, pc := Pc.leaving,
          context := ctx, queued := q, trace := tr }).trace = tr ++ moveActions b := by
      by_cases hq : b.QT_VERSION > QT_VERSION_CHECK 5 0 0 <;>
        simp [EmuThread.runStep, GRenderWindow.moveContext, Sys.emit, moveActions, hq]
    have hf : (moveActions b).filter Act.byWorker = moveActions b := by
      by_cases hq : b.QT_VERSION > QT_VERSION_CHECK 5 0 0 <;>
        simp [moveActions, hq, Act.byWorker]
    refine ⟨by rw [hm]; exact hlen _, ?_⟩
    have hpc : (EmuThread.runStep b
        { exec_cpu_step := e, cpu_running := c, stop_run := sr, pc := Pc.leaving,
          context := ctx, queued := q, trace := tr }).pc = Pc.halting := by
      simp [EmuThread.runStep]
    rw [hpc]
    simp only
    rw [hm, drop_filter_append _ _ _ _ h1, hf]
    exact ⟨_, rfl, h2⟩
  | halting =>
    simp only at h2
    obtain ⟨pre, hpre, hall⟩ := h2
    refine ⟨by simpa [EmuThread.runStep, Sys.emit] using hlen [.coreStop], ?_⟩
    simp only [EmuThread.runStep, Sys.emit]
    rw [drop_filter_append _ _ _ _ h1, hpre]
    exact ⟨pre, by simp [exitActions, Act.byWorker], hall⟩
  | finished => exact ⟨h1, h2⟩
  | idle => exact ⟨h1, h2⟩
  | terminated => exact ⟨h1, h2⟩

/-- A liveness check of `Stop` that finds the thread gone: it has finished `run()`, and
its actions since `Stop` began end with `exitActions`. -/
theorem exitShape_done (b : Build) (n : Nat) (t : Sys) (a : Act) (h : ExitShape b n t)
    (hr : t.isRunning = false) (ha : Act.byWorker a = false) :
    (t.emit a).pc = Pc.finished ∧
    ∃ pre, ((t.emit a).trace.drop n).filter Act.byWorker = pre ++ exitActions b ∧
      ∀ x ∈ pre, x.preExit = true := by
  have h' : ExitShape b n (t.emit a) :=
    exitShape_append b n t _ [a] h rfl (by simp [ha]) rfl
  obtain ⟨_, h2⟩ := h'
  have hpc : (t.emit a).pc = Pc.finished := by
    obtain ⟨x, c, sr, pc, ctx, q, tr⟩ := t
    obtain ⟨_, h3⟩ := h
    cases pc <;> simp_all [Sys.isRunning, Sys.emit]
  rw [hpc] at h2
  exact ⟨hpc, h2⟩

/-- A `Stop` on a thread that has not left the loop and that does not issue
`terminate()`: the thread has finished, and its actions during the `Stop` are actions of
the loop followed by `exitActions`. -/
theorem Stop_exitShape (b : Build) (σ : EmuThread.Stop.Schedule) (s : Sys)
    (hr : s.isRunning = true) (hpc : s.pc ≠ Pc.leaving ∧ s.pc ≠ Pc.halting)
    (hT : Act.terminate ∉ EmuThread.Stop.actions b σ s) :
    (EmuThread.Stop b σ s).pc = Pc.finished ∧
    ∃ pre, ((EmuThread.Stop b σ s).trace.drop s.trace.length).filter Act.byWorker =
        pre ++ exitActions b ∧ ∀ a ∈ pre, a.preExit = true := by
  have hadv : ∀ k t, ExitShape b s.trace.length t →
      ExitShape b s.trace.length (EmuThread.advance b k t) := fun k t ht =>
    iterate_runStep_preserves b (ExitShape b s.trace.length)
      (runStep_exitShape b s.trace.length) k t ht
  have hem : ∀ (a : Act) t, Act.byWorker a = false → ExitShape b s.trace.length t →
      ExitShape b s.trace.length (t.emit a) := fun a t ha ht =>
    exitShape_append b _ t _ [a] ht rfl (by simp [ha]) rfl
  have h0 : ExitShape b s.trace.length s := by
    refine ⟨le_refl _, ?_⟩
    obtain ⟨x, c, sr, pc, ctx, q, tr⟩ := s
    cases pc <;> simp_all [Sys.isRunning]
  have hw : ExitShape b s.trace.length
      { EmuThread.advance b σ.afterTest61 s with stop_run := true } := hadv _ _ h0
  have h1 : ExitShape b s.trace.length (EmuThread.Stop.atFirstCheck b σ s) :=
    hadv _ _ (hem _ _ rfl (hadv _ _ hw))
  have h2 : ExitShape b s.trace.length (EmuThread.Stop.atSecondCheck b σ s) :=
    hadv _ _ (hem _ _ rfl (hadv _ _ (hem _ _ rfl (hadv _ _ (hem _ _ rfl (hadv _ _ h1))))))
  have hact := Stop_actions_eq b σ s hr
  rw [Stop_running b σ s hr]
  split_ifs with c1 c2
  · rw [hact] at hT
    simp [c1, c2] at hT
  · exact exitShape_done b _ _ _ h2 (by simpa using c2) rfl
  · exact exitShape_done b _ _ _ h1 (by simpa using c1) rfl

/-- C4 (as amended). In a build against any Qt version other than 5.0.0 itself, in every
run from the constructed state:

* the actions of the emulation thread come in the order `exitOrder` reads:
  `DoneCurrent()` on the emulation thread comes only after `started()` and the emulation
  work of that run, it is followed - unless `terminate()` kills the thread first - by
  the move of the context to the application thread (only in a build against Qt newer
  than 5.0.0) and then by `Core::Stop()`, each once, and no `Core::RunLoop()` or
  `Core::SingleStep()` comes after it before the thread is started again;
* the loop is left only during a `Stop` (between two events the thread is not past the
  loop while running, and in the loop the stop flag is clear);
* whenever `Stop` is called on the running thread and does not issue `terminate()`, the
  thread has finished when `Stop` returns, and what the emulation thread did during the
  call is actions of the loop followed by exactly `exitActions`;
* a thread in the loop that finds the stop flag set and is not killed takes exactly
  three more steps, which add exactly `exitActions` to the trace.

The build is either against Qt newer than 5.0.0, and `exitActions` is `DoneCurrent()`,
the move to the application thread, `Core::Stop()`; or against Qt older than 5.0.0, and
`exitActions` is `DoneCurrent()`, `Core::Stop()`. -/
theorem run_exit_sequence (b : Build) (hqt : b.QT_VERSION ≠ QT_VERSION_CHECK 5 0 0)
    (es : List Ev) :
    exitOrder b .outside (exec b Sys.constructed es).trace =
      some (ExitPhase.ofPc b (exec b Sys.constructed es).pc) ∧
    ((exec b Sys.constructed es).pc ≠ Pc.leaving ∧
      (exec b Sys.constructed es).pc ≠ Pc.halting ∧
      ((exec b Sys.constructed es).pc = Pc.loop →
        (exec b Sys.constructed es).stop_run = false)) ∧
    (∀ σ : EmuThread.Stop.Schedule, (exec b Sys.constructed es).isRunning = true →
      Act.terminate ∉ EmuThread.Stop.actions b σ (exec b Sys.constructed es) →
      (EmuThread.Stop b σ (exec b Sys.constructed es)).pc = Pc.finished ∧
      ∃ pre, ((EmuThread.Stop b σ (exec b Sys.constructed es)).trace.drop
          (exec b Sys.constructed es).trace.length).filter Act.byWorker =
          pre ++ exitActions b ∧
        ∀ a ∈ pre, a.preExit = true) ∧
    (∀ t : Sys, t.pc = Pc.loop → t.stop_run = true →
      ((EmuThread.runStep b)^[3] t).pc = Pc.finished ∧
      ((EmuThread.runStep b)^[3] t).trace = t.trace ++ exitActions b ∧
      (∀ n, (EmuThread.runStep b)^[3 + n] t = (EmuThread.runStep b)^[3] t)) ∧
    ((b.QT_VERSION > QT_VERSION_CHECK 5 0 0 ∧
        exitActions b = [.doneCurrent .emu, .moveToThread .app, .coreStop]) ∨
      (b.QT_VERSION < QT_VERSION_CHECK 5 0 0 ∧
        exitActions b = [.doneCurrent .emu, .coreStop])) := by
  have hB := exec_in_loop b es Sys.constructed (by simp [Sys.constructed])
  refine ⟨exec_exitOrder b es Sys.constructed rfl, hB, ?_, ?_, ?_⟩
  · intro σ hr hT
    exact Stop_exitShape b σ _ hr ⟨hB.1, hB.2.1⟩ hT
  · intro t h1 h2
    exact runStep_three b t h1 h2
  · by_cases hq : b.QT_VERSION > QT_VERSION_CHECK 5 0 0
    · exact Or.inl ⟨hq, by simp [exitActions, moveActions, hq]⟩
    · exact Or.inr ⟨by omega, by simp [exitActions, moveActions, hq]⟩

/-- C4, at a concrete input: on Qt 5.2.0, after the hand-off, a `Stop` during which the
thread does one more loop iteration before the flag is written and then leaves within
the first wait. -/
theorem run_exit_sequence_witness :
    qt520.QT_VERSION ≠ QT_VERSION_CHECK 5 0 0 ∧
    (exec qt520 Sys.constructed
      [.start, .setCpuRunning true, .worker, .deliver, .worker,
        .stop { afterTest61 := 1, afterWrite66 := 0, inWait70 := 3, afterTest71 := 0,
                afterLog73 := 0, afterQuit74 := 0, inWait75 := 0, afterTest76 := 0,
                afterLog78 := 0 }]).trace =
      [.emitStarted, .doneCurrent .app, .moveToThread .emu, .runLoop, .wait 500,
        .doneCurrent .emu, .moveToThread .app, .coreStop, .log .info .stopped] ∧
    exitOrder qt520 .outside
      (exec qt520 Sys.constructed
        [.start, .setCpuRunning true, .worker, .deliver, .worker,
          .stop { afterTest61 := 1, afterWrite66 := 0, inWait70 := 3, afterTest71 := 0,
                  afterLog73 := 0, afterQuit74 := 0, inWait75 := 0, afterTest76 := 0,
                  afterLog78 := 0 }]).trace =
      some (ExitPhase.ofPc qt520
        (exec qt520 Sys.constructed
          [.start, .setCpuRunning true, .worker, .deliver, .worker,
            .stop { afterTest61 := 1, afterWrite66 := 0, inWait70 := 3, afterTest71 := 0,
                    afterLog73 := 0, afterQuit74 := 0, inWait75 := 0, afterTest76 := 0,
                    afterLog78 := 0 }]).pc) :=
  ⟨by decide, by decide,
    (run_exit_sequence qt520 (by decide)
      [.start, .setCpuRunning true, .worker, .deliver, .worker,
        .stop { afterTest61 := 1, afterWrite66 := 0, inWait70 := 3, afterTest71 := 0,
                afterLog73 := 0, afterQuit74 := 0, inWait75 := 0, afterTest76 := 0,
                afterLog78 := 0 }]).1⟩

/-- C4, refuted as stated.  In a build against Qt 4.8.0 a full start / hand-off / stop
cycle ends with the thread finished, and the trace holds `DoneCurrent()` on the emulation
thread followed directly by `Core::Stop()`; the context's affinity is never reassigned.
In a build against Qt 5.2.0, a thread that leaves the loop during the second wait and
gets no further is killed by `terminate()`: it has left the loop, and neither
`DoneCurrent()` nor `Core::Stop()` follows. -/
theorem run_exit_without_reassign :
    ((exec qt480 Sys.constructed
        [.start, .worker, .deliver, .worker, .stop (.waits 3 0)]).pc = Pc.finished ∧
      (exec qt480 Sys.constructed
        [.start, .worker, .deliver, .worker, .stop (.waits 3 0)]).trace =
        [.emitStarted, .doneCurrent .app, .wait 500, .doneCurrent .emu, .coreStop,
          .log .info .stopped] ∧
      Act.moveToThread Thread.app ∉
        (exec qt480 Sys.constructed
          [.start, .worker, .deliver, .worker, .stop (.waits 3 0)]).trace) ∧
    ((EmuThread.Stop.atSecondCheck qt520 (.waits 0 1)
        (exec qt520 Sys.constructed [.start, .worker, .deliver, .worker])).pc = Pc.leaving ∧
      (exec qt520 Sys.constructed
        [.start, .worker, .deliver, .worker, .stop (.waits 0 1)]).pc = Pc.terminated ∧
      (exec qt520 Sys.constructed
        [.start, .worker, .deliver, .worker, .stop (.waits 0 1)]).trace =
        [.emitStarted, .doneCurrent .app, .moveToThread .emu, .wait 500,
          .log .warn .stillRunning, .quit, .wait 1000, .log .warn .somethingWrong,
          .terminate, .log .info .stopped]) := by
  decide

/-! ## The stop flag is cleared on entry (C10) -/

theorem runStep_polling (b : Build) (s : Sys) (h : Polling s) :
    Polling (EmuThread.runStep b s) := by
  obtain ⟨e, c, sr, pc, ctx, q, tr⟩ := s
  rcases h with h | h | ⟨h, h2⟩ <;> simp only at h <;> subst h
  · simp [Polling, EmuThread.runStep]
  · simp [Polling, EmuThread.runStep]
  · simp only at h2
    subst h2
    cases c <;> cases e <;> simp [Polling, EmuThread.runStep, Sys.emit]

theorem polling_isRunning (s : Sys) (h : Polling s) : s.isRunning = true := by
  obtain ⟨e, c, sr, pc, ctx, q, tr⟩ := s
  rcases h with h | h | ⟨h, _⟩ <;> simp only at h <;> subst h <;> rfl

/-- A `Stop` whose write of `stop_run` lands before `run()` has executed its first
statement cannot end the loop: the flag is cleared by `run()`, both liveness checks find
the thread running, and `Stop` ends in `terminate()`. -/
theorem Stop_before_entry (b : Build) (σ : EmuThread.Stop.Schedule) (s : Sys)
    (hr : s.isRunning = true)
    (h : (EmuThread.advance b σ.afterTest61 s).pc = Pc.launched ∨
      (EmuThread.advance b σ.afterTest61 s).pc = Pc.entry) :
    (EmuThread.Stop b σ s).pc = Pc.terminated := by
  have hadv : ∀ k t, Polling t → Polling (EmuThread.advance b k t) := fun k t ht =>
    iterate_runStep_preserves b Polling (runStep_polling b) k t ht
  have hp : Polling { EmuThread.advance b σ.afterTest61 s with stop_run := true } := by
    rcases h with h | h
    · exact Or.inl h
    · exact Or.inr (Or.inl h)
  have h1 : Polling (EmuThread.Stop.atFirstCheck b σ s) := hadv _ _ (hadv _ _ hp)
  have h2 : Polling (EmuThread.Stop.atSecondCheck b σ s) :=
    hadv _ _ (hadv _ _ (hadv _ _ (hadv _ _ h1)))
  have h3 : Polling (EmuThread.Stop.atTerminate b σ s) := hadv _ _ (hadv _ _ h2)
  rw [Stop_running b σ s hr, polling_isRunning _ h1, polling_isRunning _ h2]
  simp [EmuThread.terminate, polling_isRunning _ h3]

/-- Without a `Stop`, a thread at the entry of `run()` or polling in the loop stays
there. -/
theorem exec_keeps_polling (b : Build) (es : List Ev) (s : Sys)
    (hes : ∀ σ, Ev.stop σ ∉ es)
    (h : s.pc = Pc.entry ∨ (s.pc = Pc.loop ∧ s.stop_run = false)) :
    (exec b s es).pc = Pc.entry ∨
      ((exec b s es).pc = Pc.loop ∧ (exec b s es).stop_run = false) := by
  induction es generalizing s with
  | nil => exact h
  | cons e es ih =>
    have hrest : ∀ σ, Ev.stop σ ∉ es := fun σ hm =>
      hes σ (List.mem_cons_of_mem _ hm)
    have hstep : (step b s e).pc = Pc.entry ∨
        ((step b s e).pc = Pc.loop ∧ (step b s e).stop_run = false) := by
      obtain ⟨x, c, sr, pc, ctx, q, tr⟩ := s
      cases e with
      | stop σ => exact absurd (List.mem_cons_self _ _) (hes σ)
      | start =>
        rcases h with h | ⟨h, h2⟩ <;> simp only at h <;> subst h
        · simp [step, EmuThread.start, Sys.isRunning]
        · simp only at h2
          simp [step, EmuThread.start, Sys.isRunning, h2]
      | deliver =>
        simp only [step, GRenderWindow.deliverStarted, GRenderWindow.moveContext]
        split_ifs <;> simpa using h
      | worker =>
        rcases h with h | ⟨h, h2⟩ <;> simp only at h <;> subst h
        · simp [step, EmuThread.runStep]
        · simp only at h2
          subst h2
          cases c <;> cases x <;> simp [step, EmuThread.runStep, Sys.emit]
      | execStep => simpa [step, EmuThread.ExecStep] using h
      | setCpuRunning v => simpa [step, EmuThread.SetCpuRunning] using h
    exact ih (step b s e) hrest hstep

/-- C10. At the entry of `run()`, whatever the flags are (in particular with `stop_run`
already set by an earlier `Stop`), the first statement clears `stop_run`, so the first
loop test passes and the thread stays in the loop; as long as no `Stop` is called after
that, no sequence of events makes the thread leave the loop; and a `Stop` that is called
at the entry and writes `stop_run` before `run()` has executed its first statement is
discarded by `run()` and ends in `terminate()`. -/
theorem run_clears_stop_flag (b : Build) (s : Sys) (h : s.pc = Pc.entry) :
    (EmuThread.runStep b s).stop_run = false ∧
    (EmuThread.runStep b s).pc = Pc.loop ∧
    (EmuThread.runStep b (EmuThread.runStep b s)).pc = Pc.loop ∧
    (∀ n, ((EmuThread.runStep b)^[n + 1] s).pc = Pc.loop ∧
      ((EmuThread.runStep b)^[n + 1] s).stop_run = false) ∧
    (∀ es, (∀ σ, Ev.stop σ ∉ es) →
      (exec b s es).pc = Pc.entry ∨
        ((exec b s es).pc = Pc.loop ∧ (exec b s es).stop_run = false)) ∧
    (∀ σ : EmuThread.Stop.Schedule, σ.afterTest61 = 0 →
      (EmuThread.Stop b σ s).pc = Pc.terminated) := by
  have hloop : ∀ n, ((EmuThread.runStep b)^[n + 1] s).pc = Pc.loop ∧
      ((EmuThread.runStep b)^[n + 1] s).stop_run = false := by
    intro n
    rw [Function.iterate_succ_apply]
    refine iterate_runStep_preserves b (fun t => t.pc = Pc.loop ∧ t.stop_run = false) ?_ n _ ?_
    · intro t ht
      obtain ⟨x, c, sr, pc, ctx, q, tr⟩ := t
      obtain ⟨h1, h2⟩ := ht
      simp only at h1 h2
      subst h1 h2
      cases c <;> cases x <;> simp [EmuThread.runStep, Sys.emit]
    · obtain ⟨x, c, sr, pc, ctx, q, tr⟩ := s
      simp only at h
      subst h
      simp [EmuThread.runStep]
  refine ⟨?_, ?_, ?_, hloop, ?_, ?_⟩
  · obtain ⟨x, c, sr, pc, ctx, q, tr⟩ := s
    simp only at h
    subst h
    rfl
  · obtain ⟨x, c, sr, pc, ctx, q, tr⟩ := s
    simp only at h
    subst h
    rfl
  · exact (hloop 1).1
  · intro es hes
    exact exec_keeps_polling b es s hes (Or.inl h)
  · intro σ hσ
    refine Stop_before_entry b σ s (by simp [Sys.isRunning, h]) (Or.inr ?_)
    rw [hσ]
    exact h

/-- C10, at a concrete input: `Stop` had set `stop_run` before `run()` entered. -/
theorem run_clears_stop_flag_witness :
    ({ exec qt520 Sys.constructed [.start, .worker] with stop_run := true } : Sys).pc =
      Pc.entry ∧
    (EmuThread.runStep qt520
      { exec qt520 Sys.constructed [.start, .worker] with stop_run := true }).stop_run =
      false :=
  ⟨by decide,
    (run_clears_stop_flag qt520
      { exec qt520 Sys.constructed [.start, .worker] with stop_run := true } (by decide)).1⟩

/-! ## Start-up: the hand-off request and the first emulation work (C5) -/

theorem precedesFirst_append_of_mem (p q : Act → Bool) (tr l : List Act)
    (hm : ∃ x ∈ tr, p x = true) (h : precedesFirst p q tr = true) :
    precedesFirst p q (tr ++ l) = true := by
  induction tr with
  | nil => simp at hm
  | cons a tr ih =>
    simp only [List.cons_append, precedesFirst] at h ⊢
    by_cases hp : p a = true
    · simp [hp]
    · simp only [hp, if_false] at h ⊢
      by_cases hq : q a = true
      · simp [hq] at h
      · simp only [hq, if_false] at h ⊢
        obtain ⟨x, hx, hpx⟩ := hm
        rcases List.mem_cons.mp hx with rfl | hx
        · exact absurd hpx hp
        · exact ih ⟨x, hx, hpx⟩ h

theorem precedesFirst_of_none (p q : Act → Bool) (l : List Act)
    (hl : ∀ a ∈ l, q a = false) : precedesFirst p q l = true := by
  induction l with
  | nil => rfl
  | cons a l ih =>
    simp only [precedesFirst]
    have hq : q a = false := hl a (List.mem_cons_self _ _)
    by_cases hp : p a = true
    · simp [hp]
    · simp only [hp, hq, if_false]
      exact ih (fun x hx => hl x (List.mem_cons_of_mem _ hx))

theorem precedesFirst_append_of_none (p q : Act → Bool) (tr l : List Act)
    (hl : ∀ a ∈ l, q a = false) (h : precedesFirst p q tr = true) :
    precedesFirst p q (tr ++ l) = true := by
  induction tr with
  | nil => simpa using precedesFirst_of_none p q l hl
  | cons a tr ih =>
    simp only [List.cons_append, precedesFirst] at h ⊢
    by_cases hp : p a = true
    · simp [hp]
    · simp only [hp, if_false] at h ⊢
      by_cases hq : q a = true
      · simp [hq] at h
      · simp only [hq, if_false] at h ⊢
        exact ih h

/-- Appending actions that are not emulation work keeps `StartedFirst`, as long as the
thread's position stays where it is or moves off the entry and the loop. -/
theorem startedFirst_append (n : Nat) (s t : Sys) (l : List Act) (h : StartedFirst n s)
    (htr : t.trace = s.trace ++ l) (hl : ∀ a ∈ l, Act.isWork a = false)
    (hpc : t.pc = Pc.entry ∨ t.pc = Pc.loop → s.pc = Pc.entry ∨ s.pc = Pc.loop) :
    StartedFirst n t := by
  obtain ⟨h1, h2, h3⟩ := h
  refine ⟨?_, ?_, ?_⟩
  · rw [htr, List.length_append]
    omega
  · rw [htr, List.drop_append_of_le_length h1]
    exact precedesFirst_append_of_none _ _ _ _ hl h2
  · intro ht
    rw [htr, List.drop_append_of_le_length h1]
    exact List.mem_append_left _ (h3 (hpc ht))

theorem runStep_startedFirst (b : Build) (n : Nat) (s : Sys) (h : StartedFirst n s) :
    StartedFirst n (EmuThread.runStep b s) := by
  obtain ⟨e, c, sr, pc, ctx, q, tr⟩ := s
  cases pc
  case launched =>
    obtain ⟨h1, h2, _⟩ := h
    simp only at h1 h2
    refine ⟨?_, ?_, ?_⟩
    · simp [EmuThread.runStep, Sys.emit]
      omega
    · simp only [EmuThread.runStep, Sys.emit]
      rw [List.drop_append_of_le_length h1]
      exact precedesFirst_append_of_none _ _ _ _ (by simp [Act.isWork]) h2
    · intro _
      simp only [EmuThread.runStep, Sys.emit]
      rw [List.drop_append_of_le_length h1]
      simp
  case entry =>
    exact startedFirst_append n _ _ [] h (by simp [EmuThread.runStep]) (by simp)
      (fun _ => Or.inl rfl)
  case loop =>
    have hh := h
    have hm : Act.emitStarted ∈ List.drop n tr := h.2.2 (Or.inr rfl)
    obtain ⟨h1, h2, _⟩ := h
    simp only at h1 h2
    have key : ∀ l : List Act, StartedFirst n
        { exec_cpu_step := false, cpu_running := c, stop_run := sr, pc := Pc.loop,
          context := ctx, queued := q, trace := tr ++ l } ∧
        StartedFirst n
        { exec_cpu_step := e, cpu_running := c, stop_run := sr, pc := Pc.loop,
          context := ctx, queued := q, trace := tr ++ l } := by
      intro l
      have hp : precedesFirst (fun a => decide (a = Act.emitStarted)) Act.isWork
          (List.drop n (tr ++ l)) = true := by
        rw [List.drop_append_of_le_length h1]
        exact precedesFirst_append_of_mem _ _ _ _ ⟨Act.emitStarted, hm, by simp⟩ h2
      have hmem : Act.emitStarted ∈ List.drop n (tr ++ l) := by
        rw [List.drop_append_of_le_length h1]
        exact List.mem_append_left _ hm
      have hlen : n ≤ (tr ++ l).length := by
        rw [List.length_append]
        omega
      exact ⟨⟨hlen, hp, fun _ => hmem⟩, ⟨hlen, hp, fun _ => hmem⟩⟩
    cases sr
    · cases c
      · cases e
        · simpa [EmuThread.runStep] using (key []).2
        · simpa [EmuThread.runStep, Sys.emit] using
            (key [.singleStep, .cpuStepped, .yieldCurrentThread]).1
      · simpa [EmuThread.runStep, Sys.emit] using (key [.runLoop]).2
    · exact startedFirst_append n _ _ [] hh (by simp [EmuThread.runStep]) (by simp)
        (by simp [EmuThread.runStep])
  case leaving =>
    by_cases hq : b.QT_VERSION > QT_VERSION_CHECK 5 0 0
    · exact startedFirst_append n _ _ [.doneCurrent .emu, .moveToThread .app] h
        (by simp [EmuThread.runStep, GRenderWindow.moveContext, Sys.emit, hq])
        (by simp [Act.isWork]) (by simp [EmuThread.runStep])
    · exact startedFirst_append n _ _ [.doneCurrent .emu] h
        (by simp [EmuThread.runStep, GRenderWindow.moveContext, Sys.emit, hq])
        (by simp [Act.isWork]) (by simp [EmuThread.runStep])
  case halting =>
    exact startedFirst_append n _ _ [.coreStop] h (by simp [EmuThread.runStep, Sys.emit])
      (by simp [Act.isWork]) (by simp [EmuThread.runStep])
  case idle => exact h
  case finished => exact h
  case terminated => exact h

theorem step_startedFirst (b : Build) (n : Nat) (s : Sys) (e : Ev) (h : StartedFirst n s) :
    StartedFirst n (step b s e) := by
  cases e with
  | start =>
    simp only [step, EmuThread.start]
    split_ifs
    · exact h
    · exact startedFirst_append n _ _ [] h (by simp) (by simp) (by simp)
  | stop σ =>
    refine Stop_preserves b (StartedFirst n) (runStep_startedFirst b n) ?_ ?_ ?_ σ s h
    · intro t a ha _ ht
      refine startedFirst_append n t _ [a] ht rfl ?_ (fun x => x)
      intro x hx
      rw [List.mem_singleton.mp hx]
      cases a <;> simp [Act.byStop] at ha <;> rfl
    · intro t ht
      exact startedFirst_append n t _ [] ht (by simp) (by simp) (fun x => x)
    · intro t ht
      refine startedFirst_append n t _ [.terminate] ht (by simp [EmuThread.terminate])
        (by simp [Act.isWork]) ?_
      simp only [EmuThread.terminate]
      split_ifs with hr
      · simp
      · exact fun x => x
  | deliver =>
    simp only [step, GRenderWindow.deliverStarted]
    split_ifs
    · exact h
    · by_cases hq : b.QT_VERSION > QT_VERSION_CHECK 5 0 0
      · exact startedFirst_append n _ _ [.doneCurrent .app, .moveToThread .emu] h
          (by simp [GRenderWindow.moveContext, Sys.emit, hq])
          (by simp [Act.isWork]) (by simp [GRenderWindow.moveContext, hq])
      · exact startedFirst_append n _ _ [.doneCurrent .app] h
          (by simp [GRenderWindow.moveContext, Sys.emit, hq])
          (by simp [Act.isWork]) (by simp [GRenderWindow.moveContext, hq])
  | worker => exact runStep_startedFirst b n s h
  | execStep =>
    exact startedFirst_append n s _ [] h (by simp [step, EmuThread.ExecStep])
      (by simp) (by simp [step, EmuThread.ExecStep])
  | setCpuRunning v =>
    exact startedFirst_append n s _ [] h (by simp [step, EmuThread.SetCpuRunning])
      (by simp) (by simp [step, EmuThread.SetCpuRunning])

theorem exec_startedFirst (b : Build) (n : Nat) (es : List Ev) (s : Sys)
    (h : StartedFirst n s) : StartedFirst n (exec b s es) := by
  induction es generalizing s with
  | nil => exact h
  | cons e es ih => exact ih (step b s e) (step_startedFirst b n s e h)

/-- If an action satisfying `p` comes before the first one satisfying `q`, and there is
one satisfying `q`, then there is one satisfying `p`. -/
theorem precedesFirst_mem (p q : Act → Bool) (l : List Act)
    (h : precedesFirst p q l = true) (hq : ∃ x ∈ l, q x = true) : ∃ y ∈ l, p y = true := by
  induction l with
  | nil => simp at hq
  | cons a l ih =>
    simp only [precedesFirst] at h
    by_cases hp : p a = true
    · exact ⟨a, List.mem_cons_self _ _, hp⟩
    · simp only [hp, if_false] at h
      by_cases hqa : q a = true
      · simp [hqa] at h
      · simp only [hqa, if_false] at h
        obtain ⟨x, hx, hqx⟩ := hq
        rcases List.mem_cons.mp hx with rfl | hx
        · exact absurd hqx hqa
        · obtain ⟨y, hy, hpy⟩ := ih h ⟨x, hx, hqx⟩
          exact ⟨y, List.mem_cons_of_mem _ hy, hpy⟩

/-- A step of the emulation thread posts one slot call exactly when it emits
`started()`. -/
theorem runStep_posted (b : Build) (s : Sys) :
    (EmuThread.runStep b s).posted + s.started = s.posted + (EmuThread.runStep b s).started := by
  obtain ⟨e, c, sr, pc, ctx, q, tr⟩ := s
  cases pc
  case leaving =>
    by_cases hq : b.QT_VERSION > QT_VERSION_CHECK 5 0 0 <;>
      simp [EmuThread.runStep, Sys.posted, Sys.started, Sys.emit, GRenderWindow.moveContext,
        List.count_append, hq]
  case loop =>
    cases sr <;> cases c <;> cases e <;>
      simp [EmuThread.runStep, Sys.posted, Sys.started, Sys.emit, List.count_append]
  case launched =>
    simp [EmuThread.runStep, Sys.posted, Sys.started, Sys.emit, List.count_append]
    omega
  all_goals simp [EmuThread.runStep, Sys.posted, Sys.started, Sys.emit, List.count_append]

/-- No event changes the difference between the slot calls posted and the emissions of
`started()`. -/
theorem step_posted (b : Build) (s0 s : Sys) (e : Ev)
    (h : s.posted + s0.started = s0.posted + s.started) :
    (step b s e).posted + s0.started = s0.posted + (step b s e).started := by
  cases e with
  | start =>
    simp only [step, EmuThread.start]
    split_ifs
    · exact h
    · simpa [Sys.posted, Sys.started] using h
  | stop σ =>
    refine Stop_preserves b (fun t => t.posted + s0.started = s0.posted + t.started)
      ?_ ?_ ?_ ?_ σ s h
    · intro t ht
      have := runStep_posted b t
      omega
    · intro t a ha _ ht
      cases a <;> simp [Act.byStop] at ha <;>
        simpa [Sys.posted, Sys.started, List.count_append] using ht
    · intro t ht
      exact ht
    · intro t ht
      simpa [EmuThread.terminate, Sys.posted, Sys.started, List.count_append] using ht
  | deliver =>
    by_cases hq0 : s.queued = 0
    · simpa [step, GRenderWindow.deliverStarted, hq0] using h
    · have hpos : 0 < s.queued := Nat.pos_of_ne_zero hq0
      by_cases hq : b.QT_VERSION > QT_VERSION_CHECK 5 0 0
      · simp only [Sys.posted, Sys.started] at h
        simp [step, GRenderWindow.deliverStarted, GRenderWindow.moveContext, Sys.emit,
          Sys.posted, Sys.started, List.count_append, hq0, hq]
        omega
      · simp only [Sys.posted, Sys.started] at h
        simp [step, GRenderWindow.deliverStarted, GRenderWindow.moveContext, Sys.emit,
          Sys.posted, Sys.started, List.count_append, hq0, hq]
        omega
  | worker =>
    have := runStep_posted b s
    simp only [step]
    omega
  | execStep => simpa [step, EmuThread.ExecStep, Sys.posted, Sys.started] using h
  | setCpuRunning v => simpa [step, EmuThread.SetCpuRunning, Sys.posted, Sys.started] using h

theorem exec_posted (b : Build) (s0 : Sys) (es : List Ev) (s : Sys)
    (h : s.posted + s0.started = s0.posted + s.started) :
    (exec b s es).posted + s0.started = s0.posted + (exec b s es).started := by
  induction es generalizing s with
  | nil => exact h
  | cons e es ih => exact ih (step b s e) (step_posted b s0 s e h)

/-- The trace only grows. -/
theorem exec_trace_grows (b : Build) (es : List Ev) (s0 s : Sys)
    (h : ∃ l, s.trace = s0.trace ++ l) : ∃ l, (exec b s es).trace = s0.trace ++ l := by
  induction es generalizing s with
  | nil => exact h
  | cons e es ih =>
    refine ih (step b s e) ?_
    have hrun : ∀ t : Sys, (∃ l, t.trace = s0.trace ++ l) →
        ∃ l, (EmuThread.runStep b t).trace = s0.trace ++ l := by
      intro t ⟨l, hl⟩
      obtain ⟨m, hm, _⟩ := runStep_trace b t
      exact ⟨l ++ m, by rw [hm, hl, List.append_assoc]⟩
    cases e with
    | start =>
      simp only [step, EmuThread.start]
      split_ifs <;> exact h
    | stop σ =>
      refine Stop_preserves b (fun t => ∃ l, t.trace = s0.trace ++ l) hrun ?_ ?_ ?_ σ s h
      · intro t a _ _ ⟨l, hl⟩
        exact ⟨l ++ [a], by simp [hl]⟩
      · intro t ht
        exact ht
      · intro t ⟨l, hl⟩
        exact ⟨l ++ [.terminate], by simp [EmuThread.terminate, hl]⟩
    | deliver =>
      obtain ⟨l, hl⟩ := h
      simp only [step, GRenderWindow.deliverStarted, GRenderWindow.moveContext]
      split_ifs
      · exact ⟨l, hl⟩
      · exact ⟨l ++ [.doneCurrent .app, .moveToThread .emu], by simp [Sys.emit, hl]⟩
      · exact ⟨l ++ [.doneCurrent .app], by simp [Sys.emit, hl]⟩
    | worker => exact hrun s h
    | execStep => exact h
    | setCpuRunning v => exact h

/-- C5 (as amended). In every run that begins with the emulation thread not running:
the emission of `started()` comes before the first `Core::RunLoop()` or
`Core::SingleStep()`; every emission posts exactly one call of the slot `moveContext`
to the application thread (line 130), so that the calls posted since the beginning -
still queued or already run - are as many as the emissions; hence once emulation work has
been done, a call of `moveContext` has been posted.  The transfer itself happens later,
when the application thread runs the slot: in a build against Qt newer than 5.0.0 it then
releases the context and moves it to the emulation thread. -/
theorem started_before_first_work (b : Build) (s : Sys) (hs : s.isRunning = false)
    (es : List Ev) :
    precedesFirst (fun a => decide (a = Act.emitStarted)) Act.isWork
      ((exec b s es).trace.drop s.trace.length) = true ∧
    (exec b s es).posted + s.started = s.posted + (exec b s es).started ∧
    ((∃ a ∈ (exec b s es).trace.drop s.trace.length, Act.isWork a = true) →
      s.posted < (exec b s es).posted) ∧
    (b.QT_VERSION > QT_VERSION_CHECK 5 0 0 → ∀ t : Sys, t.queued ≠ 0 →
      (GRenderWindow.deliverStarted b t).context = Thread.emu ∧
      (GRenderWindow.deliverStarted b t).trace =
        t.trace ++ [.doneCurrent .app, .moveToThread .emu]) := by
  have h0 : StartedFirst s.trace.length s := by
    refine ⟨le_refl _, by simp [precedesFirst], ?_⟩
    intro hpc
    obtain ⟨e, c, sr, pc, ctx, q, tr⟩ := s
    rcases hpc with hpc | hpc <;> simp only at hpc <;> subst hpc <;>
      simp [Sys.isRunning] at hs
  have hfirst := (exec_startedFirst b s.trace.length es s h0).2.1
  have hbal := exec_posted b s es s rfl
  refine ⟨hfirst, hbal, ?_, ?_⟩
  · intro hw
    obtain ⟨l, hl⟩ := exec_trace_grows b es s s ⟨[], by simp⟩
    rw [hl, List.drop_left] at hfirst hw
    obtain ⟨y, hy, hpy⟩ := precedesFirst_mem _ _ l hfirst hw
    have hy2 : y = Act.emitStarted := by simpa using hpy
    subst hy2
    have hc : 0 < l.count Act.emitStarted := List.count_pos_iff.mpr hy
    have hst : (exec b s es).started = s.started + l.count Act.emitStarted := by
      simp [Sys.started, hl, List.count_append]
    omega
  · intro hq t ht
    simp [GRenderWindow.deliverStarted, GRenderWindow.moveContext, Sys.emit, ht, hq]

/-- C5, at a concrete input: on Qt 5.2.0 the thread is started from the constructed
state and calls `Core::RunLoop()` before the queued slot is run. -/
theorem started_before_first_work_witness :
    Sys.constructed.isRunning = false ∧
    precedesFirst (fun a => decide (a = Act.emitStarted)) Act.isWork
      ((exec qt520 Sys.constructed
        [.start, .setCpuRunning true, .worker, .worker, .worker]).trace.drop
        Sys.constructed.trace.length) = true ∧
    Sys.constructed.posted <
      (exec qt520 Sys.constructed
        [.start, .setCpuRunning true, .worker, .worker, .worker]).posted :=
  ⟨by decide,
    (started_before_first_work qt520 Sys.constructed (by decide)
      [.start, .setCpuRunning true, .worker, .worker, .worker]).1,
    (started_before_first_work qt520 Sys.constructed (by decide)
      [.start, .setCpuRunning true, .worker, .worker, .worker]).2.2.1
      ⟨Act.runLoop, by decide, rfl⟩⟩

/-- C5, refuted as stated: on Qt 5.2.0 the application thread calls `start()` and sets
`cpu_running`; the new thread emits `started()`, enters `run()` and calls
`Core::RunLoop()` while the slot `moveContext` is still queued: the context is still with
the application thread, and its move to the emulation thread comes after the first
emulation work. -/
theorem work_before_transfer :
    (exec qt520 Sys.constructed [.start, .setCpuRunning true, .worker, .worker, .worker]).trace =
      [.emitStarted, .runLoop] ∧
    (exec qt520 Sys.constructed
      [.start, .setCpuRunning true, .worker, .worker, .worker]).context = Thread.app ∧
    (exec qt520 Sys.constructed
      [.start, .setCpuRunning true, .worker, .worker, .worker, .deliver]).trace =
      [.emitStarted, .runLoop, .doneCurrent .app, .moveToThread .emu] ∧
    precedesFirst (fun a => decide (a = Act.moveToThread Thread.emu)) Act.isWork
      (exec qt520 Sys.constructed
        [.start, .setCpuRunning true, .worker, .worker, .worker, .deliver]).trace = false := by
  decide

/-! ## The affinity rule over start/stop sequences (C1) -/

theorem runStep_mem_trace (b : Build) (a : Act) (s : Sys) (h : a ∈ s.trace) :
    a ∈ (EmuThread.runStep b s).trace := by
  obtain ⟨l, hl, _⟩ := runStep_trace b s
  rw [hl]
  exact List.mem_append_left _ h

theorem step_mem_trace (b : Build) (a : Act) (s : Sys) (e : Ev) (h : a ∈ s.trace) :
    a ∈ (step b s e).trace := by
  cases e with
  | start =>
    simp only [step, EmuThread.start]
    split_ifs <;> exact h
  | stop σ =>
    refine Stop_preserves b (fun t => a ∈ t.trace) (runStep_mem_trace b a) ?_ ?_ ?_ σ s h
    · intro t x _ _ ht
      exact List.mem_append_left _ ht
    · intro t ht
      exact ht
    · intro t ht
      simp only [EmuThread.terminate, emit_trace]
      exact List.mem_append_left _ ht
  | deliver =>
    simp only [step, GRenderWindow.deliverStarted, GRenderWindow.moveContext]
    split_ifs <;> simp [h]
  | worker => exact runStep_mem_trace b a s h
  | execStep => exact h
  | setCpuRunning v => exact h

theorem exec_mem_trace (b : Build) (a : Act) (es : List Ev) (s : Sys) (h : a ∈ s.trace) :
    a ∈ (exec b s es).trace := by
  induction es generalizing s with
  | nil => exact h
  | cons e es ih => exact ih (step b s e) (step_mem_trace b a s e h)

theorem runStep_stopPhase (b : Build) (s : Sys) (h : StopPhase b s) :
    StopPhase b (EmuThread.runStep b s) := by
  obtain ⟨e, c, sr, pc, ctx, q, tr⟩ := s
  obtain ⟨hq4, h⟩ := h
  simp only at hq4
  cases pc
  case leaving =>
    simp only at h
    by_cases hq : b.QT_VERSION > QT_VERSION_CHECK 5 0 0
    · simp [StopPhase, EmuThread.runStep, GRenderWindow.moveContext, Sys.emit, hq, h]
    · have hc := hq4 hq
      simp [StopPhase, EmuThread.runStep, GRenderWindow.moveContext, Sys.emit, hq, h, hc]
  case loop =>
    simp only at h
    cases sr <;> cases c <;> cases e <;>
      simp_all [StopPhase, EmuThread.runStep, Sys.emit]
  all_goals simp_all [StopPhase, EmuThread.runStep, Sys.emit]

/-- When a liveness check of `Stop` finds the thread gone, it has finished `run()`, and
the invariant holds again. -/
theorem stopPhase_done (b : Build) (s : Sys) (a : Act) (h : StopPhase b s)
    (hr : s.isRunning = false) : Inv b (s.emit a) := by
  obtain ⟨e, c, sr, pc, ctx, q, tr⟩ := s
  obtain ⟨hq4, h⟩ := h
  cases pc <;> simp_all [Inv, Sys.isRunning, Sys.emit]

theorem Stop_inv (b : Build) (σ : EmuThread.Stop.Schedule) (s : Sys) (h : Inv b s)
    (hq : s.queued = 0) (hl : s.pc ≠ Pc.launched)
    (hT : Act.terminate ∉ (EmuThread.Stop b σ s).trace) :
    Inv b (EmuThread.Stop b σ s) := by
  cases hr : s.isRunning
  · have e : EmuThread.Stop b σ s = s.emit (.log .info .notRunning) := by
      simp [EmuThread.Stop, hr]
    rw [e]
    exact h
  · have hadv : ∀ k t, StopPhase b t → StopPhase b (EmuThread.advance b k t) := fun k t ht =>
      iterate_runStep_preserves b (StopPhase b) (runStep_stopPhase b) k t ht
    have hp : StopPhase b s := by
      obtain ⟨e, c, sr, pc, ctx, q, tr⟩ := s
      obtain ⟨hq4, h⟩ := h
      simp only at hq hl
      cases pc <;> simp_all [StopPhase, Sys.isRunning]
    have hw : StopPhase b { EmuThread.advance b σ.afterTest61 s with stop_run := true } :=
      hadv _ _ hp
    have h1 : StopPhase b (EmuThread.Stop.atFirstCheck b σ s) := hadv _ _ (hadv _ _ hw)
    have h2 : StopPhase b (EmuThread.Stop.atSecondCheck b σ s) :=
      hadv _ _ (hadv _ _ (hadv _ _ (hadv _ _ h1)))
    rw [Stop_running b σ s hr] at hT ⊢
    split_ifs at hT ⊢ with c1 c2
    · exact absurd (by simp [EmuThread.terminate]) hT
    · exact stopPhase_done b _ _ h2 (by simpa using c2)
    · exact stopPhase_done b _ _ h1 (by simpa using c1)

theorem runStep_inv (b : Build) (s : Sys) (h : Inv b s) : Inv b (EmuThread.runStep b s) := by
  obtain ⟨e, c, sr, pc, ctx, q, tr⟩ := s
  obtain ⟨hq4, h⟩ := h
  simp only at hq4
  cases pc
  case loop =>
    simp only at h
    obtain ⟨hsr, h⟩ := h
    subst hsr
    cases c <;> cases e <;> simp_all [Inv, EmuThread.runStep, Sys.emit]
  all_goals simp_all [Inv, EmuThread.runStep, Sys.emit]

theorem deliverStarted_inv (b : Build) (s : Sys) (h : Inv b s) :
    Inv b (GRenderWindow.deliverStarted b s) := by
  by_cases hq0 : s.queued = 0
  · have e : GRenderWindow.deliverStarted b s = s := by
      simp [GRenderWindow.deliverStarted, hq0]
    rw [e]
    exact h
  · obtain ⟨e, c, sr, pc, ctx, q, tr⟩ := s
    obtain ⟨hq4, h⟩ := h
    simp only at hq4 hq0
    cases pc with
    | entry =>
      obtain ⟨hle, hc⟩ := h
      simp only at hle hc
      have h1 : q = 1 := by omega
      subst h1
      by_cases hq : b.QT_VERSION > QT_VERSION_CHECK 5 0 0
      · simp [Inv, GRenderWindow.deliverStarted, GRenderWindow.moveContext, Sys.emit, hq]
      · have hctx := hq4 hq
        simp [Inv, GRenderWindow.deliverStarted, GRenderWindow.moveContext, Sys.emit, hq, hctx]
    | loop =>
      obtain ⟨hsr, hle, hc⟩ := h
      simp only at hsr hle hc
      have h1 : q = 1 := by omega
      subst h1
      by_cases hq : b.QT_VERSION > QT_VERSION_CHECK 5 0 0
      · simp [Inv, GRenderWindow.deliverStarted, GRenderWindow.moveContext, Sys.emit, hq, hsr]
      · have hctx := hq4 hq
        simp [Inv, GRenderWindow.deliverStarted, GRenderWindow.moveContext, Sys.emit, hq, hctx,
          hsr]
    | _ => simp_all [Inv]

theorem step_inv (b : Build) (s : Sys) (e : Ev) (h : Inv b s)
    (hq : ∀ σ, e = Ev.stop σ → s.queued = 0 ∧ s.pc ≠ Pc.launched)
    (hT : Act.terminate ∉ (step b s e).trace) : Inv b (step b s e) := by
  cases e with
  | start =>
    obtain ⟨x, c, sr, pc, ctx, q, tr⟩ := s
    obtain ⟨hq4, h⟩ := h
    cases pc <;> simp_all [Inv, step, EmuThread.start, Sys.isRunning]
  | stop σ => exact Stop_inv b σ s h (hq σ rfl).1 (hq σ rfl).2 hT
  | deliver => exact deliverStarted_inv b s h
  | worker => exact runStep_inv b s h
  | execStep => exact h
  | setCpuRunning v => exact h

theorem exec_inv (b : Build) (es : List Ev) (s : Sys) (h : Inv b s)
    (hq : stopsAfterHandOff b s es = true)
    (hT : Act.terminate ∉ (exec b s es).trace) : Inv b (exec b s es) := by
  induction es generalizing s with
  | nil => exact h
  | cons e es ih =>
    have hT1 : Act.terminate ∉ (step b s e).trace := fun hm =>
      hT (exec_mem_trace b _ es _ hm)
    have hq1 : (∀ σ, e = Ev.stop σ → s.queued = 0 ∧ s.pc ≠ Pc.launched) ∧
        stopsAfterHandOff b (step b s e) es = true := by
      cases e <;> simp_all [stopsAfterHandOff]
    exact ih (step b s e) (step_inv b s e h hq1.1 hT1) hq1.2 hT

theorem inv_affinityOk (b : Build) (s : Sys) (h : Inv b s) : s.affinityOk := by
  obtain ⟨e, c, sr, pc, ctx, q, tr⟩ := s
  obtain ⟨hq4, h⟩ := h
  cases pc <;> simp_all [Sys.affinityOk, Sys.isRunning]

/-- C1 (as amended). In every run from the constructed state - any interleaving of
`start()`, `Stop()` (with the emulation thread advancing between any two statements of
`Stop`), steps of the emulation thread, runs of the queued slot and flag writes - in
which each `Stop` is called only after the hand-off (the thread has emitted `started()`
and the slot call this posted has been run) and in which `terminate()` is never issued,
the GL context is with the application thread whenever the emulation thread is not
running, and with the emulation thread only while it is running.  This holds for every
Qt version. -/
theorem affinity_invariant (b : Build) (es : List Ev)
    (hq : stopsAfterHandOff b Sys.constructed es = true)
    (hT : Act.terminate ∉ (exec b Sys.constructed es).trace) :
    ((exec b Sys.constructed es).isRunning = false →
      (exec b Sys.constructed es).context = Thread.app) ∧
    ((exec b Sys.constructed es).context = Thread.emu →
      (exec b Sys.constructed es).isRunning = true) := by
  have h0 : Inv b Sys.constructed := by
    simp [Inv, Sys.constructed]
  exact inv_affinityOk b _ (exec_inv b es Sys.constructed h0 hq hT)

/-- C1, at a concrete input: two full start / hand-off / stop cycles on Qt 5.2.0.  In the
first the thread sees the flag during the first wait; in the second it is overtaken by
the write of `stop_run` right after entering the loop and finishes during the second
wait. -/
theorem affinity_invariant_witness :
    stopsAfterHandOff qt520 Sys.constructed
      [.start, .worker, .deliver, .worker, .stop (.waits 3 0),
        .start, .worker, .deliver,
        .stop { afterTest61 := 1, afterWrite66 := 0, inWait70 := 1, afterTest71 := 0,
                afterLog73 := 1, afterQuit74 := 0, inWait75 := 1, afterTest76 := 0,
                afterLog78 := 0 }] = true ∧
    (exec qt520 Sys.constructed
      [.start, .worker, .deliver, .worker, .stop (.waits 3 0),
        .start, .worker, .deliver,
        .stop { afterTest61 := 1, afterWrite66 := 0, inWait70 := 1, afterTest71 := 0,
                afterLog73 := 1, afterQuit74 := 0, inWait75 := 1, afterTest76 := 0,
                afterLog78 := 0 }]).isRunning = false ∧
    (exec qt520 Sys.constructed
      [.start, .worker, .deliver, .worker, .stop (.waits 3 0),
        .start, .worker, .deliver,
        .stop { afterTest61 := 1, afterWrite66 := 0, inWait70 := 1, afterTest71 := 0,
                afterLog73 := 1, afterQuit74 := 0, inWait75 := 1, afterTest76 := 0,
                afterLog78 := 0 }]).context = Thread.app :=
  ⟨by decide, by decide,
    (affinity_invariant qt520
      [.start, .worker, .deliver, .worker, .stop (.waits 3 0),
        .start, .worker, .deliver,
        .stop { afterTest61 := 1, afterWrite66 := 0, inWait70 := 1, afterTest71 := 0,
                afterLog73 := 1, afterQuit74 := 0, inWait75 := 1, afterTest76 := 0,
                afterLog78 := 0 }] (by decide) (by decide)).1
      (by decide)⟩

/-- C1, refuted as stated, on Qt 5.2.0.  First run: the thread is started, the context
is handed to it, and `Stop` finds it alive at both checks and calls `terminate()`; the
thread is gone and the context is still with it.  Second run, without `terminate()`:
`Stop` is called while the slot call is still queued; the thread leaves `run()`, and the
slot then moves the context to the thread that has finished.  Third run, without
`terminate()` either: `Stop` is called right after `start()`, when nothing is queued yet;
between the `isRunning()` test and the write of `stop_run` the new thread emits
`started()` and enters the loop, it then sees the flag and leaves `run()`, and the slot
moves the context to the thread that has finished. -/
theorem affinity_broken :
    ((exec qt520 Sys.constructed
        [.start, .worker, .deliver, .worker, .stop (.waits 0 0)]).isRunning = false ∧
      (exec qt520 Sys.constructed
        [.start, .worker, .deliver, .worker, .stop (.waits 0 0)]).pc = Pc.terminated ∧
      (exec qt520 Sys.constructed
        [.start, .worker, .deliver, .worker, .stop (.waits 0 0)]).context = Thread.emu) ∧
    ((exec qt520 Sys.constructed
        [.start, .worker, .worker, .stop (.waits 3 0), .deliver]).isRunning = false ∧
      (exec qt520 Sys.constructed
        [.start, .worker, .worker, .stop (.waits 3 0), .deliver]).pc = Pc.finished ∧
      (exec qt520 Sys.constructed
        [.start, .worker, .worker, .stop (.waits 3 0), .deliver]).context = Thread.emu ∧
      Act.terminate ∉ (exec qt520 Sys.constructed
        [.start, .worker, .worker, .stop (.waits 3 0), .deliver]).trace) ∧
    ((exec qt520 Sys.constructed [.start]).queued = 0 ∧
      (exec qt520 Sys.constructed
        [.start,
          .stop { afterTest61 := 2, afterWrite66 := 0, inWait70 := 3, afterTest71 := 0,
                  afterLog73 := 0, afterQuit74 := 0, inWait75 := 0, afterTest76 := 0,
                  afterLog78 := 0 },
          .deliver]).pc = Pc.finished ∧
      (exec qt520 Sys.constructed
        [.start,
          .stop { afterTest61 := 2, afterWrite66 := 0, inWait70 := 3, afterTest71 := 0,
                  afterLog73 := 0, afterQuit74 := 0, inWait75 := 0, afterTest76 := 0,
                  afterLog78 := 0 },
          .deliver]).context = Thread.emu ∧
      Act.terminate ∉ (exec qt520 Sys.constructed
        [.start,
          .stop { afterTest61 := 2, afterWrite66 := 0, inWait70 := 3, afterTest71 := 0,
                  afterLog73 := 0, afterQuit74 := 0, inWait75 := 0, afterTest76 := 0,
                  afterLog78 := 0 },
          .deliver]).trace) := by
  decide

/-! ## Window geometry (C6, C7, C8) -/

/-- The concrete pair `QWidget.plain` round-trips. -/
theorem plain_roundTrips : QWidget.plain.RoundTrips := fun _ _ => rfl

/-- C6 (as amended). With a `QWidget` pair that round-trips,
`restoreGeometry(saveGeometry())` leaves the live geometry unchanged when the window is
top-level, and also when the stored backup is the serialisation of the live geometry; for
a window with a parent it sets the live geometry to the one the stored backup encodes. -/
theorem restoreSaved_live {G B : Type} (q : QWidget G B) (hq : q.RoundTrips)
    (w : GRenderWindow G B) :
    (w.parent = none → (GRenderWindow.restoreSaved q w).live = w.live) ∧
    (w.geometry = q.saveGeometry w.live → (GRenderWindow.restoreSaved q w).live = w.live) ∧
    (w.parent ≠ none →
      (GRenderWindow.restoreSaved q w).live = q.restoreGeometry w.geometry w.live) := by
  refine ⟨?_, ?_, ?_⟩
  · intro hp
    simp [GRenderWindow.restoreSaved, GRenderWindow.saveGeometry,
      GRenderWindow.restoreGeometry, GRenderWindow.BackupGeometry, hp, hq w.live w.live]
  · intro hg
    by_cases hp : w.parent = none
    · simp [GRenderWindow.restoreSaved, GRenderWindow.saveGeometry,
        GRenderWindow.restoreGeometry, GRenderWindow.BackupGeometry, hp, hq w.live w.live]
    · simp [GRenderWindow.restoreSaved, GRenderWindow.saveGeometry,
        GRenderWindow.restoreGeometry, GRenderWindow.BackupGeometry, hp, hg, hq w.live w.live]
  · intro hp
    simp [GRenderWindow.restoreSaved, GRenderWindow.saveGeometry,
      GRenderWindow.restoreGeometry, GRenderWindow.BackupGeometry, hp]

/-- C6, at a concrete input: a top-level window with a stale backup. -/
theorem restoreSaved_live_witness :
    QWidget.plain.RoundTrips ∧
    (GRenderWindow.restoreSaved QWidget.plain
      { parent := none, live := 1, geometry := 2 }).live = 1 :=
  ⟨plain_roundTrips,
    (restoreSaved_live QWidget.plain plain_roundTrips
      { parent := none, live := 1, geometry := 2 }).1 rfl⟩

/-- C6, refuted as stated: the `QWidget` pair round-trips, the window has a parent, its
live geometry is 1 and its stored backup encodes 2; `restoreGeometry(saveGeometry())`
changes the live geometry to 2. -/
theorem restoreSaved_moves_parented :
    QWidget.plain.RoundTrips ∧
    (GRenderWindow.restoreSaved QWidget.plain
      { parent := some 0, live := 1, geometry := 2 }).live = 2 ∧
    (GRenderWindow.restoreSaved QWidget.plain
      { parent := some 0, live := 1, geometry := 2 }).live ≠
      ({ parent := some 0, live := 1, geometry := 2 } : GRenderWindow Nat Nat).live :=
  ⟨plain_roundTrips, rfl, by decide⟩

/-- C7 (as amended). `saveGeometry` and `RestoreGeometry` never change the stored
snapshot.  `BackupGeometry`, `restoreGeometry` and the constructor overwrite it with the
serialisation of the live geometry, whether or not the window has a parent.  The test
`parent() == NULL` only selects what `saveGeometry` returns: the serialised live geometry
for a top-level window, the stored snapshot otherwise.  None of them changes the
parent. -/
theorem snapshot_writes {G B : Type} (q : QWidget G B) (w : GRenderWindow G B) (g : B)
    (parent : Option Nat) (resized : G) (empty : B) :
    (GRenderWindow.saveGeometry q w).2 = w ∧
    (GRenderWindow.RestoreGeometry q w).geometry = w.geometry ∧
    (GRenderWindow.BackupGeometry q w).geometry = q.saveGeometry w.live ∧
    (GRenderWindow.restoreGeometry q g w).geometry =
      q.saveGeometry (q.restoreGeometry g w.live) ∧
    (GRenderWindow.construct q parent resized empty).geometry = q.saveGeometry resized ∧
    (GRenderWindow.saveGeometry q w).1 =
      (if w.parent = none then q.saveGeometry w.live else w.geometry) ∧
    (GRenderWindow.RestoreGeometry q w).parent = w.parent ∧
    (GRenderWindow.BackupGeometry q w).parent = w.parent ∧
    (GRenderWindow.restoreGeometry q g w).parent = w.parent := by
  refine ⟨?_, rfl, rfl, rfl, rfl, ?_, rfl, rfl, rfl⟩
  · simp only [GRenderWindow.saveGeometry]
    split_ifs <;> rfl
  · simp only [GRenderWindow.saveGeometry]
    split_ifs <;> rfl

/-- C7, refuted as stated: the window has a parent and its stored snapshot is 2, the
serialisation of an earlier geometry; `BackupGeometry`, `restoreGeometry` and the
constructor each write the stored snapshot all the same. -/
theorem snapshot_written_with_parent :
    ({ parent := some 0, live := 1, geometry := 2 } : GRenderWindow Nat Nat).parent ≠ none ∧
    (GRenderWindow.BackupGeometry QWidget.plain
      { parent := some 0, live := 1, geometry := 2 }).geometry = 1 ∧
    (GRenderWindow.restoreGeometry QWidget.plain 3
      { parent := some 0, live := 1, geometry := 2 }).geometry = 3 ∧
    (GRenderWindow.construct QWidget.plain (some 0) 1 0).geometry = 1 := by
  decide

/-- C8. `restoreGeometry(g)` applies `g` to the live geometry and then stores the
serialisation of the resulting live geometry as the backup; the following
`saveGeometry()` returns exactly that serialisation and changes nothing, whatever the
parent is.  `RestoreGeometry()` applies the stored backup to the live geometry and leaves
the stored backup as it was. -/
theorem restoreGeometry_recaptures {G B : Type} (q : QWidget G B) (w : GRenderWindow G B)
    (g : B) :
    (GRenderWindow.restoreGeometry q g w).live = q.restoreGeometry g w.live ∧
    (GRenderWindow.restoreGeometry q g w).geometry =
      q.saveGeometry (GRenderWindow.restoreGeometry q g w).live ∧
    (GRenderWindow.restoreGeometry q g w).parent = w.parent ∧
    (GRenderWindow.saveGeometry q (GRenderWindow.restoreGeometry q g w)).1 =
      q.saveGeometry (q.restoreGeometry g w.live) ∧
    (∀ p : Option Nat,
      (GRenderWindow.saveGeometry q (GRenderWindow.restoreGeometry q g { w with parent := p })).1 =
        q.saveGeometry (q.restoreGeometry g w.live)) ∧
    (GRenderWindow.saveGeometry q (GRenderWindow.restoreGeometry q g w)).2 =
      GRenderWindow.restoreGeometry q g w ∧
    (GRenderWindow.RestoreGeometry q w).live = q.restoreGeometry w.geometry w.live ∧
    (GRenderWindow.RestoreGeometry q w).geometry = w.geometry ∧
    (GRenderWindow.RestoreGeometry q w).parent = w.parent := by
  have key : ∀ v : GRenderWindow G B,
      (GRenderWindow.saveGeometry q (GRenderWindow.restoreGeometry q g v)).1 =
        q.saveGeometry (q.restoreGeometry g v.live) := by
    intro v
    simp only [GRenderWindow.saveGeometry, GRenderWindow.restoreGeometry,
      GRenderWindow.BackupGeometry]
    split_ifs <;> rfl
  refine ⟨rfl, rfl, rfl, key w, fun p => key { w with parent := p }, ?_, rfl, rfl, rfl⟩
  simp only [GRenderWindow.saveGeometry]
  split_ifs <;> rfl

end Bootmanager
